import Mathlib

/-!
# Verification of the `urlblocks` / `urlstring` URL value library

A shallow embedding of the library's URL algorithms over `List Char`
(the library's value types are all subclasses of the built-in string type,
so every operation is a function from strings to strings or to a raised
validation error, which we model with `Except`).

The generic URI splitter/joiner (`urlparse.urlsplit` / `urlunsplit`) is,
per the specification, an assumed external capability that splits a URL
string into the five standard components and rejoins them; we embed the
standard-library behaviour the code calls into.  The component helper
modules (`netloc`, `path`, `query_string`, the percent codec) are not part
of the provided sources, so they are modelled from the specification, as
marked on each definition.
-/

namespace Urlblocks

/-- Convert a string literal to the character-list representation used
throughout this development. -/
def cs (s : String) : List Char := s.toList

/-- Split a list at the first occurrence of `c`: the part before it and,
when `c` occurs, the part after it.  Models Python `str.split(c, 1)`. -/
def splitAtFirst (c : Char) : List Char → List Char × Option (List Char)
  | [] => ([], none)
  | x :: xs =>
    if x = c then ([], some xs)
    else
      let r := splitAtFirst c xs
      (x :: r.1, r.2)

/-- Split a list at the last occurrence of `c` (part before, part after),
when `c` occurs.  Models Python `str.rsplit(c, 1)`. -/
def splitAtLast (c : Char) (l : List Char) : Option (List Char × List Char) :=
  match splitAtFirst c l.reverse with
  | (_, none) => none
  | (a, some b) => some (b.reverse, a.reverse)

/-- Split on every occurrence of `c`; `splitOnChar c []` is `[[]]`, matching
Python `str.split(c)`. -/
def splitOnChar (c : Char) : List Char → List (List Char)
  | [] => [[]]
  | x :: xs =>
    match splitOnChar c xs with
    | [] => [[]]
    | h :: t => if x = c then [] :: h :: t else (x :: h) :: t

/-- Characters a URL scheme may contain. -/
def isSchemeChar (c : Char) : Bool :=
  c.isAlpha || c.isDigit || c = '+' || c = '-' || c = '.'

/-- A well-formed non-empty scheme: a leading letter followed by scheme
characters.  The generic splitter only recognises `scheme:` when the text
before the first `:` has this shape. -/
def validScheme : List Char → Bool
  | [] => false
  | c :: rest => c.isAlpha && (c :: rest).all isSchemeChar

/-- The five generic URI components. -/
structure SplitURL where
  scheme : List Char
  netloc : List Char
  path : List Char
  query : List Char
  fragment : List Char
deriving DecidableEq, Repr

/-- A character that terminates the netloc portion of a URL. -/
def isNetlocEnd (c : Char) : Bool := c = '/' || c = '?' || c = '#'

/-- Modelled from the spec: the generic URI splitter (spec section 1 treats it
as an assumed library capability; the code reaches it through
`urlparse.urlsplit`).  Behaviour: an optional `scheme:` (recognised when the
text before the first `:` is a well-formed scheme), an optional `//netloc`
ending at the first `/`, `?` or `#`, then the fragment after the first `#`
and the query after the first `?`, the rest being the path. -/
def urlsplit (l : List Char) : SplitURL :=
  let sr :=
    match splitAtFirst ':' l with
    | (pre, some post) => if validScheme pre then (pre, post) else (([] : List Char), l)
    | (_, none) => (([] : List Char), l)
  let s := sr.1
  let rest := sr.2
  let nr :=
    if rest.take 2 = ['/', '/'] then
      ((rest.drop 2).takeWhile (fun c => !isNetlocEnd c),
       (rest.drop 2).dropWhile (fun c => !isNetlocEnd c))
    else (([] : List Char), rest)
  let n := nr.1
  let fr := splitAtFirst '#' nr.2
  let pq := splitAtFirst '?' fr.1
  ⟨s, n, pq.1, pq.2.getD [], fr.2.getD []⟩

/-- Modelled from the spec: the generic URI joiner (`urlparse.urlunsplit`).
When a netloc is present (or the path itself begins with `//`) the path is
prefixed with `//netloc`, inserting a `/` before a relative path; then
`scheme:`, `?query` and `#fragment` are attached when non-empty. -/
def urlunsplit (c : SplitURL) : List Char :=
  let u :=
    if c.netloc ≠ [] ∨ c.path.take 2 = ['/', '/'] then
      ['/', '/'] ++ c.netloc ++
        (if c.path ≠ [] ∧ c.path.head? ≠ some '/' then '/' :: c.path else c.path)
    else c.path
  let u := if c.scheme ≠ [] then c.scheme ++ ':' :: u else u
  let u := if c.query ≠ [] then u ++ '?' :: c.query else u
  if c.fragment ≠ [] then u ++ '#' :: c.fragment else u

/-- The four netloc sub-fields. -/
structure NetlocParts where
  username : Option (List Char)
  password : Option (List Char)
  host : List Char
  port : Option (List Char)
deriving DecidableEq, Repr

/-- Modelled from the spec: `Netloc` parsing (spec section 4.2; the `netloc`
module is not under `src/`): split on the last `@` for userinfo vs host-port
(userinfo split on its first `:` into username/password); split host-port on
the last `:` — when what follows fails to parse as an integer the whole
remainder is part of the host and there is no port. -/
def netloc_parse (n : List Char) : NetlocParts :=
  let uh :=
    match splitAtLast '@' n with
    | some (a, b) => (some a, b)
    | none => (none, n)
  let up :=
    match uh.1 with
    | none => ((none : Option (List Char)), (none : Option (List Char)))
    | some ui =>
      match splitAtFirst ':' ui with
      | (a, some b) => (some a, some b)
      | (a, none) => (some a, none)
  let hp :=
    match splitAtLast ':' uh.2 with
    | some (a, b) =>
      if b ≠ [] ∧ b.all Char.isDigit then (a, some b) else (uh.2, (none : Option (List Char)))
    | none => (uh.2, none)
  ⟨up.1, up.2, hp.1, hp.2⟩

/-- Modelled from the spec: `Netloc` building (spec section 4.2): userinfo is
omitted entirely when the username is absent (a password without a username
is dropped), `:password` and `:port` only when present. -/
def netloc_build (p : NetlocParts) : List Char :=
  (match p.username with
   | none => []
   | some u => u ++ (match p.password with | none => [] | some pw => ':' :: pw) ++ ['@'])
  ++ p.host ++ (match p.port with | none => [] | some pt => ':' :: pt)

/-- `Netloc.hostname`. -/
def hostnameOf (n : List Char) : List Char := (netloc_parse n).host

/-- Modelled from the spec: `Netloc.domains` — `host.split('.')`, with an
empty host giving the empty list (spec section 4.2). -/
def domainsOf (n : List Char) : List (List Char) :=
  if hostnameOf n = [] then [] else splitOnChar '.' (hostnameOf n)

/-- The construction failure taxonomy.  `IsEmpty`, `SchemeDoesNotExist` and
`HostnameDoesNotExist` are the error classes raised by `URL.__new__`
(the spec's `EmptyInput`, `MissingScheme`, `MissingOrInvalidHostname`);
`EncodingFailure` is the encoding error surfaced by `from_iri`. -/
inductive URLError
  | IsEmpty
  | SchemeDoesNotExist
  | HostnameDoesNotExist
  | EncodingFailure
deriving DecidableEq, Repr

/-- `URL.__new__` (urlblocks.py lines 692-702): reject an empty string, then a
missing scheme, then a missing hostname or one with fewer than two dotted
labels; otherwise the constructed value is the input string itself. -/
def URL_new (l : List Char) : Except URLError (List Char) :=
  if l = [] then .error .IsEmpty
  else if (urlsplit l).scheme = [] then .error .SchemeDoesNotExist
  else if hostnameOf (urlsplit l).netloc = [] ∨ (domainsOf (urlsplit l).netloc).length < 2 then
    .error .HostnameDoesNotExist
  else .ok l

/-- `URLString.__new__` (urlstring.py lines 640-649): the identical validation
cascade (its error classes are named `URLIsEmpty`, `SchemeDoesNotExist` and
`HostnameDoesNotExist`). -/
def URLString_new (l : List Char) : Except URLError (List Char) :=
  if l = [] then .error .IsEmpty
  else if (urlsplit l).scheme = [] then .error .SchemeDoesNotExist
  else if hostnameOf (urlsplit l).netloc = [] ∨ (domainsOf (urlsplit l).netloc).length < 2 then
    .error .HostnameDoesNotExist
  else .ok l

instance : DecidableEq (Except URLError (List Char)) := fun a b =>
  match a, b with
  | .ok x, .ok y => if h : x = y then .isTrue (by rw [h]) else .isFalse (by simp [h])
  | .error x, .error y => if h : x = y then .isTrue (by rw [h]) else .isFalse (by simp [h])
  | .ok _, .error _ => .isFalse (by simp)
  | .error _, .ok _ => .isFalse (by simp)

/-- A string accepted by top-level `URL` construction (the value of a valid
URL is the string itself). -/
def validURL (u : List Char) : Prop := URL_new u = .ok u

instance (u : List Char) : Decidable (validURL u) := by
  unfold validURL; infer_instance

/-- `BaseURL.__replace` without validation: resplit, replace fields, rejoin.
This is what the `_RelativeURL` variant's `with_*` methods do. -/
def rawReplace (l : List Char) (f : SplitURL → SplitURL) : List Char :=
  urlunsplit (f (urlsplit l))

/-- UTF-8 encoding of one scalar value. -/
def utf8Char (c : Char) : List Nat :=
  let n := c.toNat
  if n < 0x80 then [n]
  else if n < 0x800 then [0xC0 + n / 64, 0x80 + n % 64]
  else if n < 0x10000 then [0xE0 + n / 4096, 0x80 + n / 64 % 64, 0x80 + n % 64]
  else [0xF0 + n / 262144, 0x80 + n / 4096 % 64, 0x80 + n / 64 % 64, 0x80 + n % 64]

/-- UTF-8 encoding of a string.  (Lean characters are always Unicode scalar
values, so — unlike Python, where lone surrogates make `.encode('utf-8')`
raise — this encoding is total.) -/
def utf8Encode (l : List Char) : List Nat := (l.map utf8Char).flatten

/-- Uppercase hexadecimal digit. -/
def hexChar (n : Nat) : Char :=
  if n < 10 then Char.ofNat ('0'.toNat + n) else Char.ofNat ('A'.toNat + (n - 10))

/-- The characters never percent-encoded (spec section 4.1). -/
def isUnreservedChar (c : Char) : Bool :=
  c.isAlpha || c.isDigit || c = '_' || c = '.' || c = '-' || c = '~'

/-- Modelled from the spec: `PercentCodec.encode` — the repository's
`path_encode` (its `path` module is not under `src/`): percent-encode every
byte outside unreserved ∪ `safe` as an uppercase `%XX` triple
(spec section 4.1). -/
def path_encode (safe : List Char) (bs : List Nat) : List Char :=
  (bs.map (fun b =>
    if b < 128 then
      if isUnreservedChar (Char.ofNat b) || (Char.ofNat b) ∈ safe then [Char.ofNat b]
      else ['%', hexChar (b / 16), hexChar (b % 16)]
    else ['%', hexChar (b / 16), hexChar (b % 16)])).flatten

/-- Punycode digit: 0–25 → `a`–`z`, 26–35 → `0`–`9` (RFC 3492). -/
def punyDigitChar (d : Nat) : Char :=
  if d < 26 then Char.ofNat ('a'.toNat + d) else Char.ofNat ('0'.toNat + (d - 26))

/-- The scaling loop of the punycode bias adaptation function. -/
def punyAdaptGo (delta k : Nat) : Nat :=
  if 455 < delta then punyAdaptGo (delta / 35) (k + 36)
  else k + 36 * delta / (delta + 38)
termination_by delta
decreasing_by exact Nat.div_lt_self (by omega) (by omega)

/-- Punycode bias adaptation (RFC 3492 section 6.1). -/
def punyAdapt (delta numpoints : Nat) (firsttime : Bool) : Nat :=
  let d := if firsttime then delta / 700 else delta / 2
  punyAdaptGo (d + d / numpoints) 0

/-- Emit the variable-length integer for one delta (RFC 3492 section 6.3);
the fuel argument only bounds the loop, `q + 1` always suffices. -/
def punyVarint : Nat → Nat → Nat → Nat → List Char
  | 0, _, _, q => [punyDigitChar q]
  | fuel + 1, k, bias, q =>
    let t := if k ≤ bias then 1 else if bias + 26 ≤ k then 26 else k - bias
    if q < t then [punyDigitChar q]
    else punyDigitChar (t + (q - t) % (36 - t)) ::
      punyVarint fuel (k + 36) bias ((q - t) / (36 - t))

/-- Smallest code point `≥ n` occurring in `cps`. -/
def punyMinGE (n : Nat) (cps : List Nat) : Nat :=
  cps.foldl (fun m c => if n ≤ c ∧ c < m then c else m) 0x110000

/-- State of the punycode encoding main loop. -/
structure PunyState where
  out : List Char
  delta : Nat
  bias : Nat
  handled : Nat
deriving Repr

/-- One pass over the input for the current code point `m`. -/
def punyInner (b m : Nat) (cps : List Nat) (st : PunyState) : PunyState :=
  cps.foldl
    (fun st c =>
      if c < m then { st with delta := st.delta + 1 }
      else if c = m then
        { out := st.out ++ punyVarint (st.delta + 1) 36 st.bias st.delta
          delta := 0
          bias := punyAdapt st.delta (st.handled + 1) (st.handled = b)
          handled := st.handled + 1 }
      else st)
    st

/-- The punycode outer loop; every iteration handles at least one remaining
code point, so fuel `|input| + 1` always suffices. -/
def punyOuter (b : Nat) (cps : List Nat) : Nat → Nat → PunyState → PunyState
  | 0, _, st => st
  | fuel + 1, n, st =>
    if cps.length ≤ st.handled then st
    else
      let m := punyMinGE n cps
      let st := punyInner b m cps { st with delta := st.delta + (m - n) * (st.handled + 1) }
      punyOuter b cps fuel (m + 1) { st with delta := st.delta + 1 }

/-- Punycode encoding of one label (RFC 3492), as used by the IDNA codec. -/
def punycodeEncode (label : List Char) : List Char :=
  let cps := label.map Char.toNat
  let basic := label.filter (fun c => c.toNat < 128)
  let b := basic.length
  let out0 := basic ++ (if 0 < b then ['-'] else [])
  (punyOuter b cps (label.length + 1) 128 ⟨out0, 0, 72, b⟩).out

/-- Modelled from the spec: ToASCII for one IDNA label (the standard `idna`
codec the code calls through `netloc.encode('idna')`): an all-ASCII label is
kept when its length is 1–63; a non-ASCII label is punycode-encoded behind
the `xn--` prefix.  (The nameprep normalisation step is not modelled.) -/
def idnaToASCII (label : List Char) : Option (List Char) :=
  if label.all (fun c => c.toNat < 128) then
    if 0 < label.length ∧ label.length < 64 then some label else none
  else
    let e := cs "xn--" ++ punycodeEncode label
    if e.length < 64 then some e else none

/-- Modelled from the spec: the IDNA codec over a whole netloc: empty input
passes through; otherwise each dot-separated label is converted with
ToASCII (a single trailing dot is preserved), and any failing label makes
the whole encoding fail. -/
def idnaEncode (n : List Char) : Option (List Char) :=
  if n = [] then some [] else
  let labels := splitOnChar '.' n
  let lt :=
    if labels.getLast? = some ([] : List Char) then (labels.dropLast, true) else (labels, false)
  match lt.1.mapM idnaToASCII with
  | none => none
  | some ls => some (List.intercalate ['.'] ls ++ if lt.2 then ['.'] else [])

/-- `BaseURL.from_iri` (urlblocks.py lines 37-71): split the IRI, encode the
netloc via IDNA, percent-encode the UTF-8 bytes of path (safe `/%;`), query
(safe `=&%`) and fragment (safe `%`), reassemble, and validate the result as
a top-level `URL`. -/
def from_iri (iri : List Char) : Except URLError (List Char) :=
  let c := urlsplit iri
  match idnaEncode c.netloc with
  | none => .error .EncodingFailure
  | some n =>
    URL_new (urlunsplit ⟨c.scheme, n,
      path_encode (cs "/%;") (utf8Encode c.path),
      path_encode (cs "=&%") (utf8Encode c.query),
      path_encode (cs "%") (utf8Encode c.fragment)⟩)

/-- `BaseURL.with_scheme` on a top-level `URL` (validation re-runs through
`URL.__new__`). -/
def with_scheme (u s : List Char) : Except URLError (List Char) :=
  URL_new (rawReplace u (fun c => { c with scheme := s }))

/-- `BaseURL.with_netloc` on a top-level `URL`. -/
def with_netloc (u n : List Char) : Except URLError (List Char) :=
  URL_new (rawReplace u (fun c => { c with netloc := n }))

/-- `BaseURL.with_path` on a top-level `URL`. -/
def with_path (u p : List Char) : Except URLError (List Char) :=
  URL_new (rawReplace u (fun c => { c with path := p }))

/-- `BaseURL.with_query` on a top-level `URL`. -/
def with_query (u q : List Char) : Except URLError (List Char) :=
  URL_new (rawReplace u (fun c => { c with query := q }))

/-- `BaseURL.without_query`. -/
def without_query (u : List Char) : Except URLError (List Char) := with_query u []

/-- `BaseURL.with_fragment`: the new fragment is percent-encoded
(`path_encode` with an empty safe set, after UTF-8 encoding). -/
def with_fragment (u f : List Char) : Except URLError (List Char) :=
  URL_new (rawReplace u (fun c => { c with fragment := path_encode [] (utf8Encode f) }))

/-- `BaseURL.without_fragment`. -/
def without_fragment (u : List Char) : Except URLError (List Char) :=
  URL_new (rawReplace u (fun c => { c with fragment := [] }))

/-- Modelled from the spec: `Netloc.with_username` — replace the username
field, leaving the others untouched (spec section 4.2). -/
def netloc_with_username (n user : List Char) : List Char :=
  netloc_build { netloc_parse n with username := some user }

/-- `BaseURL.with_username`: replace the netloc by one with the new
username. -/
def with_username (u user : List Char) : Except URLError (List Char) :=
  with_netloc u (netloc_with_username (urlsplit u).netloc user)

/-- Modelled from the spec: `Netloc.with_port` (spec section 4.2). -/
def netloc_with_port (n : List Char) (port : Nat) : List Char :=
  netloc_build { netloc_parse n with port := some (Nat.toDigits 10 port) }

/-- `BaseURL.with_port`. -/
def with_port (u : List Char) (port : Nat) : Except URLError (List Char) :=
  with_netloc u (netloc_with_port (urlsplit u).netloc port)

/-- Modelled from the spec: `Netloc.without_port` (spec section 4.2). -/
def netloc_without_port (n : List Char) : List Char :=
  netloc_build { netloc_parse n with port := none }

/-- `BaseURL.without_port`. -/
def without_port (u : List Char) : Except URLError (List Char) :=
  with_netloc u (netloc_without_port (urlsplit u).netloc)

/-- Python `str.replace(old, new, 1)`: replace the leftmost occurrence of
`old` (an empty `old` matches at position 0). -/
def replaceFirst (old new : List Char) : List Char → List Char
  | [] => if old = [] then new else []
  | c :: rest =>
    if old.isPrefixOf (c :: rest) then new ++ (c :: rest).drop old.length
    else c :: replaceFirst old new rest

/-- `BaseURL.with_trailing_slash` (urlblocks.py lines 532-554): on the
query-stripped URL, when it does not end in `/`, replace its first occurrence
in the full URL by itself plus `/`. -/
def with_trailing_slash (u : List Char) : Except URLError (List Char) := do
  let uwq ← without_query u
  if uwq.getLast? = some '/' then pure u
  else pure (replaceFirst uwq (uwq ++ ['/']) u)

/-- `BaseURL.without_trailing_slash` (urlblocks.py lines 556-578). -/
def without_trailing_slash (u : List Char) : Except URLError (List Char) := do
  let uwq ← without_query u
  if uwq.getLast? = some '/' then pure (replaceFirst uwq uwq.dropLast u)
  else pure u

/-- Left-to-right collapse of `.` and `..` segments: `.` is dropped, `..`
drops itself together with the preceding kept segment (or just itself when
none precedes). -/
def collapseDots (segs : List (List Char)) : List (List Char) :=
  segs.foldl (fun acc seg =>
    if seg = ['.'] then acc
    else if seg = ['.', '.'] then acc.dropLast
    else acc ++ [seg]) []

/-- Modelled from the spec: `URLPath.relative` — the RFC-3986 section 5.3
merge (spec section 4.3; the `path` module is not under `src/`): an absolute
reference is taken verbatim; otherwise the base's directory portion (up to
and including its last `/`, empty when it has none) is prepended and `.` /
`..` segments are collapsed left to right, preserving a trailing slash when
the last processed segment was `.`, `..` or empty. -/
def path_relative (base other : List Char) : List Char :=
  if other.head? = some '/' then other
  else
    let dir := (base.reverse.dropWhile (fun c => c ≠ '/')).reverse
    let merged := dir ++ other
    let isAbs := merged.head? = some '/'
    let body := if isAbs then merged.drop 1 else merged
    let segs := splitOnChar '/' body
    let stack := collapseDots segs
    let stack :=
      if (segs.getLast? = some ['.'] ∨ segs.getLast? = some ['.', '.'])
          ∧ stack.getLast? ≠ some ([] : List Char) then
        stack ++ [[]]
      else stack
    (if isAbs then ['/'] else []) ++ List.intercalate ['/'] stack

/-- `BaseURL.relative` (urlblocks.py lines 638-668): the six-branch cascade
on the reference's components; every produced candidate is wrapped in the
validating `URL` type. -/
def relative (u other : List Char) : Except URLError (List Char) :=
  let o := urlsplit other
  let us := urlsplit u
  if o.scheme ≠ [] then URL_new other
  else if o.netloc ≠ [] then
    URL_new (rawReplace other (fun c => { c with scheme := us.scheme }))
  else if o.path ≠ [] then
    URL_new (rawReplace (rawReplace (rawReplace other (fun c => { c with scheme := us.scheme }))
      (fun c => { c with netloc := us.netloc }))
      (fun c => { c with path := path_relative us.path o.path }))
  else if o.query ≠ [] then
    URL_new (rawReplace (rawReplace (rawReplace other (fun c => { c with scheme := us.scheme }))
      (fun c => { c with netloc := us.netloc }))
      (fun c => { c with path := us.path }))
  else if o.fragment ≠ [] then
    URL_new (rawReplace (rawReplace (rawReplace (rawReplace other
      (fun c => { c with scheme := us.scheme }))
      (fun c => { c with netloc := us.netloc }))
      (fun c => { c with path := us.path }))
      (fun c => { c with query := us.query }))
  else URL_new (rawReplace u (fun c => { c with fragment := [] }))

/-- `BaseURLObject.relative` (urlstring.py lines 590-620): the same cascade,
but branches 1–5 return the `_RelatedURLObject` value, i.e. the raw string,
without re-validating it; only the empty-reference branch goes through the
validating `URLString` type (via `without_fragment`). -/
def URLString_relative (u other : List Char) : Except URLError (List Char) :=
  let o := urlsplit other
  let us := urlsplit u
  if o.scheme ≠ [] then .ok other
  else if o.netloc ≠ [] then
    .ok (rawReplace other (fun c => { c with scheme := us.scheme }))
  else if o.path ≠ [] then
    .ok (rawReplace (rawReplace (rawReplace other (fun c => { c with scheme := us.scheme }))
      (fun c => { c with netloc := us.netloc }))
      (fun c => { c with path := path_relative us.path o.path }))
  else if o.query ≠ [] then
    .ok (rawReplace (rawReplace (rawReplace other (fun c => { c with scheme := us.scheme }))
      (fun c => { c with netloc := us.netloc }))
      (fun c => { c with path := us.path }))
  else if o.fragment ≠ [] then
    .ok (rawReplace (rawReplace (rawReplace (rawReplace other
      (fun c => { c with scheme := us.scheme }))
      (fun c => { c with netloc := us.netloc }))
      (fun c => { c with path := us.path }))
      (fun c => { c with query := us.query }))
  else URLString_new (rawReplace u (fun c => { c with fragment := [] }))

/-! ## Basic facts about the splitting primitives -/

theorem splitAtFirst_of_not_mem {c : Char} {l : List Char} (h : c ∉ l) :
    splitAtFirst c l = (l, none) := by
  induction l with
  | nil => rfl
  | cons x xs ih =>
    have hx : ¬ x = c := fun he => h (he ▸ List.mem_cons_self x xs)
    have hxs : c ∉ xs := fun hm => h (List.mem_cons_of_mem _ hm)
    simp [splitAtFirst, hx, ih hxs]

theorem splitAtFirst_append {c : Char} {a : List Char} (b : List Char) (h : c ∉ a) :
    splitAtFirst c (a ++ c :: b) = (a, some b) := by
  induction a with
  | nil => simp [splitAtFirst]
  | cons x xs ih =>
    have hx : ¬ x = c := fun he => h (he ▸ List.mem_cons_self x xs)
    have hxs : c ∉ xs := fun hm => h (List.mem_cons_of_mem _ hm)
    simp [splitAtFirst, hx, ih hxs]

theorem splitAtFirst_eq_some {c : Char} {l a b : List Char}
    (h : splitAtFirst c l = (a, some b)) : l = a ++ c :: b ∧ c ∉ a := by
  induction l generalizing a b with
  | nil => simp [splitAtFirst] at h
  | cons x xs ih =>
    by_cases hx : x = c
    · subst hx
      simp [splitAtFirst] at h
      obtain ⟨ha, hb⟩ := h
      subst ha; subst hb; simp
    · cases hr : splitAtFirst c xs with
      | mk a' ob =>
        simp [splitAtFirst, hx, hr] at h
        obtain ⟨ha, hb⟩ := h
        subst hb
        obtain ⟨h1, h2⟩ := ih hr
        subst ha
        constructor
        · simpa using congrArg (x :: ·) h1
        · intro hm
          rcases List.mem_cons.1 hm with he | hm'
          · exact hx he.symm
          · exact h2 hm'

theorem splitAtFirst_eq_none {c : Char} {l a : List Char}
    (h : splitAtFirst c l = (a, none)) : l = a ∧ c ∉ a := by
  induction l generalizing a with
  | nil =>
    simp [splitAtFirst] at h
    subst h; simp
  | cons x xs ih =>
    by_cases hx : x = c
    · subst hx; simp [splitAtFirst] at h
    · cases hr : splitAtFirst c xs with
      | mk a' ob =>
        simp [splitAtFirst, hx, hr] at h
        obtain ⟨ha, hb⟩ := h
        subst hb
        obtain ⟨h1, h2⟩ := ih hr
        subst ha
        constructor
        · exact congrArg (x :: ·) h1
        · intro hm
          rcases List.mem_cons.1 hm with he | hm'
          · exact hx he.symm
          · exact h2 hm'

theorem takeWhile_append_all {p : Char → Bool} {a : List Char} (b : List Char)
    (ha : ∀ x ∈ a, p x = true) (hb : ∀ y, b.head? = some y → p y = false) :
    (a ++ b).takeWhile p = a ∧ (a ++ b).dropWhile p = b := by
  induction a with
  | nil =>
    cases b with
    | nil => simp
    | cons y ys =>
      have := hb y rfl
      simp [List.takeWhile, List.dropWhile, this]
  | cons x xs ih =>
    have hx := ha x (List.mem_cons_self x xs)
    have ihr := ih (fun z hz => ha z (List.mem_cons_of_mem _ hz))
    simp [List.takeWhile, List.dropWhile, hx, ihr.1, ihr.2]

theorem take_two_eq {l : List Char} {a b : Char} (h : l.take 2 = [a, b]) :
    ∃ t, l = a :: b :: t := by
  cases l with
  | nil => simp at h
  | cons x xs =>
    cases xs with
    | nil => simp at h
    | cons y ys =>
      simp [List.take] at h
      exact ⟨ys, by rw [h.1, h.2]⟩

theorem getLast?_append_right {a : List Char} (b : List Char) (hb : b ≠ []) :
    (a ++ b).getLast? = b.getLast? := by
  rw [List.getLast?_append]
  cases hg : b.getLast? with
  | none => exact absurd (List.getLast?_eq_none_iff.1 hg) hb
  | some y => rfl

/-! ## Scheme facts -/

theorem validScheme_chars {s : List Char} (h : validScheme s = true) :
    ∀ x ∈ s, isSchemeChar x = true := by
  cases s with
  | nil => cases h
  | cons c rest =>
    intro x hx
    simp only [validScheme, Bool.and_eq_true] at h
    exact List.all_eq_true.1 h.2 x hx

theorem validScheme_colon {s : List Char} (h : validScheme s = true) : ':' ∉ s := by
  intro hm
  have := validScheme_chars h ':' hm
  exact absurd this (by decide)

theorem validScheme_ne_nil {s : List Char} (h : validScheme s = true) : s ≠ [] := by
  cases s with
  | nil => cases h
  | cons c rest => simp

/-! ## Assembly: how `urlsplit` recovers the components of a joined URL -/

/-- An optional trailing component together with its separator character. -/
def optPart (c : Char) : Option (List Char) → List Char
  | none => []
  | some x => c :: x

/-- The path adjustment `urlunsplit` makes when a netloc is present and the
path is relative: a `/` is inserted in front. -/
def normPath (n p : List Char) : List Char :=
  if n ≠ [] ∧ p ≠ [] ∧ p.head? ≠ some '/' then '/' :: p else p

theorem urlsplit_assemble (s n p : List Char) (qo fo : Option (List Char))
    (hs : validScheme s = true)
    (hn : ∀ x ∈ n, isNetlocEnd x = false)
    (hp1 : p = [] ∨ p.head? = some '/')
    (hpq : '?' ∉ p) (hpf : '#' ∉ p)
    (hq : ∀ q, qo = some q → '#' ∉ q) :
    urlsplit (s ++ ':' :: '/' :: '/' :: (n ++ (p ++ optPart '?' qo ++ optPart '#' fo))) =
      ⟨s, n, p, qo.getD [], fo.getD []⟩ := by
  have hsc : ':' ∉ s := validScheme_colon hs
  have hbR : ∀ y, (p ++ optPart '?' qo ++ optPart '#' fo).head? = some y →
      (fun c => !isNetlocEnd c) y = false := by
    intro y hy
    rcases hp1 with hp | hp
    · subst hp
      cases qo with
      | some q =>
        simp [optPart] at hy
        subst hy; decide
      | none =>
        cases fo with
        | some f =>
          simp [optPart] at hy
          subst hy; decide
        | none => simp [optPart] at hy
    · cases p with
      | nil => simp at hp
      | cons c cst =>
        simp at hp
        subst hp
        simp at hy
        subst hy; decide
  have h2 := takeWhile_append_all (p := fun c => !isNetlocEnd c)
    (a := n) (p ++ optPart '?' qo ++ optPart '#' fo)
    (fun x hx => by simp [hn x hx]) hbR
  have hmq : '#' ∉ p ++ optPart '?' qo := by
    intro hm
    rcases List.mem_append.1 hm with h | h
    · exact hpf h
    · cases qo with
      | none => simp [optPart] at h
      | some q =>
        simp only [optPart, List.mem_cons] at h
        rcases h with h | h
        · exact absurd h (by decide)
        · exact hq q rfl h
  cases fo with
  | none =>
    cases qo with
    | none =>
      simp only [optPart, List.append_nil] at h2 ⊢
      have h3 : splitAtFirst '#' p = (p, none) := splitAtFirst_of_not_mem hpf
      have h4 : splitAtFirst '?' p = (p, none) := splitAtFirst_of_not_mem hpq
      simp only [urlsplit]
      rw [splitAtFirst_append _ hsc]
      simp only [hs, if_true]
      simp only [List.take, List.drop, reduceIte, List.cons.injEq, and_true, true_and]
      rw [h2.1, h2.2, h3, h4]
    | some q =>
      simp only [optPart, List.append_nil] at h2 ⊢
      have h3 : splitAtFirst '#' (p ++ '?' :: q) = (p ++ '?' :: q, none) := by
        refine splitAtFirst_of_not_mem ?_
        simpa [optPart] using hmq
      have h4 : splitAtFirst '?' (p ++ '?' :: q) = (p, some q) := splitAtFirst_append _ hpq
      simp only [urlsplit]
      rw [splitAtFirst_append _ hsc]
      simp only [hs, if_true]
      simp only [List.take, List.drop, reduceIte]
      rw [h2.1, h2.2, h3, h4]
  | some f =>
    cases qo with
    | none =>
      simp only [optPart, List.append_nil] at h2 ⊢
      have h3 : splitAtFirst '#' (p ++ '#' :: f) = (p, some f) := splitAtFirst_append _ hpf
      have h4 : splitAtFirst '?' p = (p, none) := splitAtFirst_of_not_mem hpq
      simp only [urlsplit]
      rw [splitAtFirst_append _ hsc]
      simp only [hs, if_true]
      simp only [List.take, List.drop, reduceIte]
      rw [h2.1, h2.2, h3, h4]
    | some q =>
      simp only [optPart] at h2 ⊢
      have h3 : splitAtFirst '#' ((p ++ '?' :: q) ++ '#' :: f) = (p ++ '?' :: q, some f) := by
        refine splitAtFirst_append _ ?_
        simpa [optPart] using hmq
      have h4 : splitAtFirst '?' (p ++ '?' :: q) = (p, some q) := splitAtFirst_append _ hpq
      simp only [urlsplit]
      rw [show p ++ '?' :: q ++ '#' :: f = (p ++ '?' :: q) ++ '#' :: f by simp]
      rw [splitAtFirst_append _ hsc]
      simp only [hs, if_true]
      simp only [List.take, List.drop, reduceIte]
      rw [h2.1, h2.2, h3, h4]

theorem urlsplit_assemble_nonet (s p : List Char) (qo fo : Option (List Char))
    (hs : validScheme s = true)
    (hpq : '?' ∉ p) (hpf : '#' ∉ p)
    (hq : ∀ q, qo = some q → '#' ∉ q)
    (hroot : p.take 2 ≠ ['/', '/']) :
    urlsplit (s ++ ':' :: (p ++ optPart '?' qo ++ optPart '#' fo)) =
      ⟨s, [], p, qo.getD [], fo.getD []⟩ := by
  have hsc : ':' ∉ s := validScheme_colon hs
  have hmq : '#' ∉ p ++ optPart '?' qo := by
    intro hm
    rcases List.mem_append.1 hm with h | h
    · exact hpf h
    · cases qo with
      | none => simp [optPart] at h
      | some q =>
        simp only [optPart, List.mem_cons] at h
        rcases h with h | h
        · exact absurd h (by decide)
        · exact hq q rfl h
  have htake : (p ++ optPart '?' qo ++ optPart '#' fo).take 2 ≠ ['/', '/'] := by
    cases p with
    | nil =>
      cases qo with
      | some q => simp [optPart, List.take]
      | none =>
        cases fo with
        | some f => simp [optPart, List.take]
        | none => simp [optPart]
    | cons a t =>
      cases t with
      | nil =>
        cases qo with
        | some q => simp [optPart, List.take]
        | none =>
          cases fo with
          | some f => simp [optPart, List.take]
          | none => simp [optPart]
      | cons b t2 =>
        simp only [List.cons_append, List.take, List.append_assoc]
        simpa [List.take] using hroot
  cases fo with
  | none =>
    cases qo with
    | none =>
      simp only [optPart, List.append_nil] at htake ⊢
      have h3 : splitAtFirst '#' p = (p, none) := splitAtFirst_of_not_mem hpf
      have h4 : splitAtFirst '?' p = (p, none) := splitAtFirst_of_not_mem hpq
      simp only [urlsplit]
      rw [splitAtFirst_append _ hsc]
      simp only [hs, if_true, htake, if_false, reduceIte]
      rw [h3, h4]
    | some q =>
      simp only [optPart, List.append_nil] at htake ⊢
      have h3 : splitAtFirst '#' (p ++ '?' :: q) = (p ++ '?' :: q, none) := by
        refine splitAtFirst_of_not_mem ?_
        simpa [optPart] using hmq
      have h4 : splitAtFirst '?' (p ++ '?' :: q) = (p, some q) := splitAtFirst_append _ hpq
      simp only [urlsplit]
      rw [splitAtFirst_append _ hsc]
      simp only [hs, if_true, htake, if_false, reduceIte]
      rw [h3, h4]
  | some f =>
    cases qo with
    | none =>
      simp only [optPart, List.append_nil] at htake ⊢
      have h3 : splitAtFirst '#' (p ++ '#' :: f) = (p, some f) := splitAtFirst_append _ hpf
      have h4 : splitAtFirst '?' p = (p, none) := splitAtFirst_of_not_mem hpq
      simp only [urlsplit]
      rw [splitAtFirst_append _ hsc]
      simp only [hs, if_true, htake, if_false, reduceIte]
      rw [h3, h4]
    | some q =>
      simp only [optPart] at htake ⊢
      have h3 : splitAtFirst '#' ((p ++ '?' :: q) ++ '#' :: f) = (p ++ '?' :: q, some f) := by
        refine splitAtFirst_append _ ?_
        simpa [optPart] using hmq
      have h4 : splitAtFirst '?' (p ++ '?' :: q) = (p, some q) := splitAtFirst_append _ hpq
      simp only [urlsplit]
      rw [show p ++ '?' :: q ++ '#' :: f = (p ++ '?' :: q) ++ '#' :: f by simp]
      rw [splitAtFirst_append _ hsc]
      have htake2 : ((p ++ '?' :: q) ++ '#' :: f).take 2 ≠ ['/', '/'] := by
        simpa [List.append_assoc] using htake
      simp only [hs, if_true, htake2, if_false, reduceIte]
      rw [h3, h4]

theorem urlunsplit_explicit (s n p q f : List Char) (hs : s ≠ [])
    (hbr : n ≠ [] ∨ p.take 2 = ['/', '/']) :
    urlunsplit ⟨s, n, p, q, f⟩ =
      s ++ ':' :: '/' :: '/' :: (n ++ (normPath n p
        ++ optPart '?' (if q = [] then none else some q)
        ++ optPart '#' (if f = [] then none else some f))) := by
  have hp' : (if p ≠ [] ∧ p.head? ≠ some '/' then '/' :: p else p) = normPath n p := by
    unfold normPath
    rcases hbr with hn0 | hp2
    · simp [hn0]
    · obtain ⟨t, ht⟩ := take_two_eq hp2
      subst ht
      simp
  simp only [urlunsplit]
  rw [if_pos hbr, hp', if_pos hs]
  by_cases hq0 : q = [] <;> by_cases hf0 : f = [] <;>
    simp [hq0, hf0, optPart, List.append_assoc]

theorem urlunsplit_explicit_nonet (s p q f : List Char) (hs : s ≠ [])
    (hbr : ¬ p.take 2 = ['/', '/']) :
    urlunsplit ⟨s, [], p, q, f⟩ =
      s ++ ':' :: (p
        ++ optPart '?' (if q = [] then none else some q)
        ++ optPart '#' (if f = [] then none else some f)) := by
  have hc : ¬ (([] : List Char) ≠ [] ∨ p.take 2 = ['/', '/']) := by
    simp [hbr]
  simp only [urlunsplit]
  rw [if_neg hc, if_pos hs]
  by_cases hq0 : q = [] <;> by_cases hf0 : f = [] <;>
    simp [hq0, hf0, optPart, List.append_assoc]

theorem optQ_getD (q : List Char) : (if q = [] then none else some q).getD ([] : List Char) = q := by
  by_cases hq0 : q = [] <;> simp [hq0]

theorem optQ_some {q q' : List Char} (h : (if q = [] then none else some q) = some q') :
    q' = q := by
  by_cases hq0 : q = [] <;> simp [hq0] at h
  exact h.symm

theorem normPath_shape (n p : List Char) (hbr : n ≠ [] ∨ p.take 2 = ['/', '/']) :
    normPath n p = [] ∨ (normPath n p).head? = some '/' := by
  unfold normPath
  by_cases hc : n ≠ [] ∧ p ≠ [] ∧ p.head? ≠ some '/'
  · simp [hc]
  · rw [if_neg hc]
    rcases hbr with hn0 | hp2
    · by_cases hp0 : p = []
      · exact Or.inl hp0
      · right
        by_contra hh
        exact hc ⟨hn0, hp0, hh⟩
    · obtain ⟨t, ht⟩ := take_two_eq hp2
      subst ht
      right
      rfl

theorem normPath_not_mem {c : Char} (hc : c ≠ '/') {n p : List Char} (h : c ∉ p) :
    c ∉ normPath n p := by
  unfold normPath
  by_cases hcond : n ≠ [] ∧ p ≠ [] ∧ p.head? ≠ some '/'
  · rw [if_pos hcond]
    intro hm
    rcases List.mem_cons.1 hm with he | hm'
    · exact hc he
    · exact h hm'
  · rw [if_neg hcond]; exact h

theorem urlsplit_urlunsplit (c : SplitURL)
    (hs : validScheme c.scheme = true)
    (hn : ∀ x ∈ c.netloc, isNetlocEnd x = false)
    (hpq : '?' ∉ c.path) (hpf : '#' ∉ c.path)
    (hq : '#' ∉ c.query) :
    urlsplit (urlunsplit c) =
      ⟨c.scheme, c.netloc, normPath c.netloc c.path, c.query, c.fragment⟩ := by
  obtain ⟨s, n, p, q, f⟩ := c
  simp only at hs hn hpq hpf hq ⊢
  have hs0 : s ≠ [] := validScheme_ne_nil hs
  have hq' : ∀ q', (if q = [] then none else some q) = some q' → '#' ∉ q' := by
    intro q' hqe
    rw [optQ_some hqe]
    exact hq
  by_cases hbr : n ≠ [] ∨ p.take 2 = ['/', '/']
  · rw [urlunsplit_explicit s n p q f hs0 hbr]
    rw [urlsplit_assemble s n (normPath n p) _ _ hs hn (normPath_shape n p hbr)
      (normPath_not_mem (by decide) hpq) (normPath_not_mem (by decide) hpf) hq']
    rw [optQ_getD, optQ_getD]
  · push_neg at hbr
    obtain ⟨hn0, hp2⟩ := hbr
    subst hn0
    have hnp : normPath [] p = p := by simp [normPath]
    rw [hnp]
    rw [urlunsplit_explicit_nonet s p q f hs0 hp2]
    rw [urlsplit_assemble_nonet s p _ _ hs hpq hpf hq' hp2]
    rw [optQ_getD, optQ_getD]

/-! ## Well-formedness of the components any `urlsplit` produces -/

theorem splitAtFirst_fst_not_mem (c : Char) (l : List Char) : c ∉ (splitAtFirst c l).1 := by
  cases hsp : splitAtFirst c l with
  | mk a ob =>
    cases ob with
    | none => exact (splitAtFirst_eq_none hsp).2
    | some b => exact (splitAtFirst_eq_some hsp).2

theorem splitAtFirst_decomp (c : Char) (l : List Char) :
    l = (splitAtFirst c l).1 ++ optPart c (splitAtFirst c l).2 := by
  cases hsp : splitAtFirst c l with
  | mk a ob =>
    cases ob with
    | none => simpa [optPart] using (splitAtFirst_eq_none hsp).1
    | some b => simpa [optPart] using (splitAtFirst_eq_some hsp).1

theorem urlsplit_scheme_valid (l : List Char) :
    (urlsplit l).scheme = [] ∨ validScheme (urlsplit l).scheme = true := by
  unfold urlsplit
  cases hsp : splitAtFirst ':' l with
  | mk a ob =>
    cases ob with
    | none => simp
    | some b =>
      by_cases hv : validScheme a = true
      · simp [hv]
      · simp [hv]

theorem urlsplit_netloc_wf (l : List Char) :
    ∀ x ∈ (urlsplit l).netloc, isNetlocEnd x = false := by
  unfold urlsplit
  cases hsp : splitAtFirst ':' l with
  | mk a ob =>
    have hgen : ∀ (r : List Char),
        ∀ x ∈ (if r.take 2 = ['/', '/'] then
            ((r.drop 2).takeWhile (fun c => !isNetlocEnd c),
             (r.drop 2).dropWhile (fun c => !isNetlocEnd c))
          else (([] : List Char), r)).1, isNetlocEnd x = false := by
      intro r x hx
      by_cases h2 : r.take 2 = ['/', '/']
      · rw [if_pos h2] at hx
        have := List.mem_takeWhile_imp hx
        simpa using this
      · rw [if_neg h2] at hx
        simp at hx
    cases ob with
    | none => simpa using hgen l
    | some b =>
      by_cases hv : validScheme a = true
      · simpa [hv] using hgen b
      · simpa [hv] using hgen l

theorem urlsplit_path_wf (l : List Char) :
    '?' ∉ (urlsplit l).path ∧ '#' ∉ (urlsplit l).path := by
  unfold urlsplit
  have hgen : ∀ (r : List Char),
      '?' ∉ (splitAtFirst '?' (splitAtFirst '#' r).1).1 ∧
      '#' ∉ (splitAtFirst '?' (splitAtFirst '#' r).1).1 := by
    intro r
    refine ⟨splitAtFirst_fst_not_mem _ _, ?_⟩
    intro hm
    have hsub := splitAtFirst_decomp '?' (splitAtFirst '#' r).1
    have : '#' ∈ (splitAtFirst '#' r).1 := by
      rw [hsub]
      exact List.mem_append.2 (Or.inl hm)
    exact splitAtFirst_fst_not_mem '#' r this
  cases hsp : splitAtFirst ':' l with
  | mk a ob =>
    cases ob with
    | none =>
      by_cases h2 : l.take 2 = ['/', '/'] <;> simp [h2] <;> exact hgen _
    | some b =>
      by_cases hv : validScheme a = true <;>
        [skip; skip] <;>
      · by_cases h2 : b.take 2 = ['/', '/'] <;> by_cases h2' : l.take 2 = ['/', '/'] <;>
          simp [hv, h2, h2'] <;> exact hgen _

theorem urlsplit_query_wf (l : List Char) : '#' ∉ (urlsplit l).query := by
  unfold urlsplit
  have hgen : ∀ (r : List Char),
      '#' ∉ ((splitAtFirst '?' (splitAtFirst '#' r).1).2.getD []) := by
    intro r hm
    have hq2 := splitAtFirst_decomp '?' (splitAtFirst '#' r).1
    cases hpq : (splitAtFirst '?' (splitAtFirst '#' r).1).2 with
    | none => simp [hpq] at hm
    | some q =>
      rw [hpq] at hm hq2
      simp at hm
      have : '#' ∈ (splitAtFirst '#' r).1 := by
        rw [hq2]
        simp only [optPart]
        exact List.mem_append.2 (Or.inr (List.mem_cons.2 (Or.inr hm)))
      exact splitAtFirst_fst_not_mem '#' r this
  cases hsp : splitAtFirst ':' l with
  | mk a ob =>
    cases ob with
    | none =>
      by_cases h2 : l.take 2 = ['/', '/'] <;> simp [h2] <;> exact hgen _
    | some b =>
      by_cases hv : validScheme a = true <;>
        [skip; skip] <;>
      · by_cases h2 : b.take 2 = ['/', '/'] <;> by_cases h2' : l.take 2 = ['/', '/'] <;>
          simp [hv, h2, h2'] <;> exact hgen _

theorem head?_dropWhile {p : Char → Bool} {l : List Char} {y : Char}
    (h : (l.dropWhile p).head? = some y) : p y = false := by
  induction l with
  | nil => simp [List.dropWhile] at h
  | cons x xs ih =>
    rw [List.dropWhile_cons] at h
    by_cases hx : p x = true
    · rw [if_pos hx] at h
      exact ih h
    · rw [if_neg hx] at h
      simp at h
      rw [← h]
      exact Bool.eq_false_iff.2 hx

/-! ## Decomposition of a URL with scheme and netloc into its raw text -/

theorem valid_decomp (u : List Char)
    (hsch : (urlsplit u).scheme ≠ []) (hnet : (urlsplit u).netloc ≠ []) :
    ∃ qo fo,
      u = (urlsplit u).scheme ++ ':' :: '/' :: '/' ::
          ((urlsplit u).netloc ++ ((urlsplit u).path ++ optPart '?' qo ++ optPart '#' fo)) ∧
      (urlsplit u).query = qo.getD [] ∧ (urlsplit u).fragment = fo.getD [] ∧
      ((urlsplit u).path = [] ∨ (urlsplit u).path.head? = some '/') := by
  cases hsp : splitAtFirst ':' u with
  | mk a ob =>
    cases ob with
    | none =>
      exfalso
      apply hsch
      simp [urlsplit, hsp]
    | some r =>
      by_cases hv : validScheme a = true
      · have hu : u = a ++ ':' :: r := (splitAtFirst_eq_some hsp).1
        by_cases h2 : r.take 2 = ['/', '/']
        · obtain ⟨r2, hr2⟩ := take_two_eq h2
          cases hfr : splitAtFirst '#' ((r.drop 2).dropWhile (fun c => !isNetlocEnd c)) with
          | mk bf ofo =>
            cases hpq : splitAtFirst '?' bf with
            | mk pp oqo =>
              have hcomp : urlsplit u =
                  ⟨a, (r.drop 2).takeWhile (fun c => !isNetlocEnd c), pp,
                   oqo.getD [], ofo.getD []⟩ := by
                simp [urlsplit, hsp, hv, h2, hfr, hpq]
              have hshape : pp = [] ∨ pp.head? = some '/' := by
                cases hpp : pp with
                | nil => exact Or.inl rfl
                | cons x xt =>
                  right
                  have e2' : (r.drop 2).dropWhile (fun c => !isNetlocEnd c) =
                      bf ++ optPart '#' ofo := by
                    have := splitAtFirst_decomp '#' ((r.drop 2).dropWhile (fun c => !isNetlocEnd c))
                    rwa [hfr] at this
                  have e3' : bf = pp ++ optPart '?' oqo := by
                    have := splitAtFirst_decomp '?' bf
                    rwa [hpq] at this
                  have hhead : ((r.drop 2).dropWhile (fun c => !isNetlocEnd c)).head? = some x := by
                    rw [e2', e3', hpp]
                    simp
                  have hx := head?_dropWhile hhead
                  have hxe : isNetlocEnd x = true := by
                    simpa using hx
                  have hxq : x ≠ '?' := by
                    intro he
                    subst he
                    apply splitAtFirst_fst_not_mem '?' bf
                    rw [hpq, hpp]
                    exact List.mem_cons_self _ _
                  have hxf : x ≠ '#' := by
                    intro he
                    subst he
                    apply splitAtFirst_fst_not_mem '#'
                      ((r.drop 2).dropWhile (fun c => !isNetlocEnd c))
                    rw [hfr]
                    show '#' ∈ bf
                    rw [e3', hpp]
                    exact List.mem_append.2 (Or.inl (List.mem_cons_self _ _))
                  have : (x = '/' ∨ x = '?') ∨ x = '#' := by
                    simpa [isNetlocEnd] using hxe
                  rcases this with (h | h) | h
                  · simp [h]
                  · exact absurd h hxq
                  · exact absurd h hxf
              refine ⟨oqo, ofo, ?_, by rw [hcomp], by rw [hcomp], by rw [hcomp]; exact hshape⟩
              have e2 : (r.drop 2).dropWhile (fun c => !isNetlocEnd c) =
                  bf ++ optPart '#' ofo := by
                have := splitAtFirst_decomp '#' ((r.drop 2).dropWhile (fun c => !isNetlocEnd c))
                rwa [hfr] at this
              have e3 : bf = pp ++ optPart '?' oqo := by
                have := splitAtFirst_decomp '?' bf
                rwa [hpq] at this
              have e1 : r.drop 2 =
                  (r.drop 2).takeWhile (fun c => !isNetlocEnd c) ++
                  (pp ++ optPart '?' oqo ++ optPart '#' ofo) := by
                conv_lhs => rw [← List.takeWhile_append_dropWhile (l := r.drop 2)
                  (p := fun c => !isNetlocEnd c)]
                rw [e2, e3]
              have hu2 : u = a ++ ':' :: '/' :: '/' :: (r.drop 2) := by
                rw [hu, hr2]
                simp [List.drop]
              rw [hcomp]
              show u = a ++ ':' :: '/' :: '/' ::
                ((r.drop 2).takeWhile (fun c => !isNetlocEnd c) ++
                  (pp ++ optPart '?' oqo ++ optPart '#' ofo))
              rw [hu2]
              conv_lhs => rw [e1]
        · exfalso
          apply hnet
          simp [urlsplit, hsp, hv, h2]
      · exfalso
        apply hsch
        simp [urlsplit, hsp, hv]


/-! ## Characterising top-level validation -/

theorem validURL_iff {u : List Char} :
    validURL u ↔ (u ≠ [] ∧ (urlsplit u).scheme ≠ [] ∧
      ¬ (hostnameOf (urlsplit u).netloc = [] ∨
         (domainsOf (urlsplit u).netloc).length < 2)) := by
  unfold validURL URL_new
  by_cases h1 : u = [] <;>
    by_cases h2 : (urlsplit u).scheme = [] <;>
      by_cases h3 : hostnameOf (urlsplit u).netloc = [] ∨
          (domainsOf (urlsplit u).netloc).length < 2 <;>
        simp [h1, h2, h3]

theorem URL_new_ok_inv {l r : List Char} (h : URL_new l = .ok r) : r = l ∧ validURL l := by
  unfold URL_new at h
  by_cases h1 : l = []
  · rw [if_pos h1] at h
    cases h
  · rw [if_neg h1] at h
    by_cases h2 : (urlsplit l).scheme = []
    · rw [if_pos h2] at h
      cases h
    · rw [if_neg h2] at h
      by_cases h3 : hostnameOf (urlsplit l).netloc = [] ∨
          (domainsOf (urlsplit l).netloc).length < 2
      · rw [if_pos h3] at h
        cases h
      · rw [if_neg h3] at h
        injection h with h'
        exact ⟨h'.symm, validURL_iff.2 ⟨h1, h2, h3⟩⟩

theorem hostnameOf_nil : hostnameOf [] = [] := by decide

theorem validURL_scheme {u : List Char} (h : validURL u) :
    validScheme (urlsplit u).scheme = true := by
  have h2 := (validURL_iff.1 h).2.1
  rcases urlsplit_scheme_valid u with h0 | h0
  · exact absurd h0 h2
  · exact h0

theorem validURL_netloc_ne {u : List Char} (h : validURL u) : (urlsplit u).netloc ≠ [] := by
  intro h0
  have h3 := (validURL_iff.1 h).2.2
  exact h3 (Or.inl (by rw [h0, hostnameOf_nil]))

/-- The decomposition of a valid URL, packaged with all the side facts the
claim proofs need. -/
theorem validURL_decomp (u : List Char) (h : validURL u) :
    ∃ qo fo,
      u = (urlsplit u).scheme ++ ':' :: '/' :: '/' ::
          ((urlsplit u).netloc ++ ((urlsplit u).path ++ optPart '?' qo ++ optPart '#' fo)) ∧
      (urlsplit u).query = qo.getD [] ∧ (urlsplit u).fragment = fo.getD [] ∧
      ((urlsplit u).path = [] ∨ (urlsplit u).path.head? = some '/') :=
  valid_decomp u (validURL_iff.1 h).2.1 (validURL_netloc_ne h)

/-- With a valid URL, `normPath` is the identity on its path. -/
theorem validURL_normPath {u : List Char} (h : validURL u) :
    normPath (urlsplit u).netloc (urlsplit u).path = (urlsplit u).path := by
  obtain ⟨qo, fo, _, _, _, hshape⟩ := validURL_decomp u h
  unfold normPath
  rcases hshape with hp | hp
  · simp [hp]
  · simp [hp]

/-- Splitting the result of replacing one component of a valid URL: the
round-trip lemma specialised to a valid base. -/
theorem urlsplit_rawReplace (u : List Char) (f : SplitURL → SplitURL)
    (hs : validScheme (f (urlsplit u)).scheme = true)
    (hn : ∀ x ∈ (f (urlsplit u)).netloc, isNetlocEnd x = false)
    (hpq : '?' ∉ (f (urlsplit u)).path) (hpf : '#' ∉ (f (urlsplit u)).path)
    (hq : '#' ∉ (f (urlsplit u)).query) :
    urlsplit (rawReplace u f) =
      ⟨(f (urlsplit u)).scheme, (f (urlsplit u)).netloc,
       normPath (f (urlsplit u)).netloc (f (urlsplit u)).path,
       (f (urlsplit u)).query, (f (urlsplit u)).fragment⟩ := by
  unfold rawReplace
  exact urlsplit_urlunsplit _ hs hn hpq hpf hq

/-! ## Helper characterisations of the derived operations -/

theorem urlunsplit_head_slash (c : SplitURL) (hc : c.scheme = []) (hn : c.netloc ≠ []) :
    (urlunsplit c).head? = some '/' := by
  unfold urlunsplit
  rw [if_pos (Or.inl hn)]
  by_cases hq : c.query = [] <;> by_cases hf : c.fragment = [] <;>
    simp [hq, hf, hc]

theorem scheme_nil_of_head_slash {x : List Char} (hx : x.head? = some '/') :
    (urlsplit x).scheme = [] := by
  unfold urlsplit
  cases hsp : splitAtFirst ':' x with
  | mk a ob =>
    cases ob with
    | none => simp
    | some b =>
      have hd := (splitAtFirst_eq_some hsp).1
      cases a with
      | nil =>
        rw [hd] at hx
        simp at hx
      | cons y ys =>
        rw [hd] at hx
        simp at hx
        have hvs : validScheme (y :: ys) = false := by
          subst hx
          simp [validScheme]
        simp [hvs]

theorem urlunsplit_ne_nil (c : SplitURL) (hs : c.scheme ≠ []) : urlunsplit c ≠ [] := by
  unfold urlunsplit
  cases hsc : c.scheme with
  | nil => exact absurd hsc hs
  | cons y ys =>
    by_cases hq : c.query = [] <;> by_cases hf : c.fragment = [] <;>
      simp [hq, hf, hsc, List.append_eq_nil]

/-- Every branch of `relative` produces a value that passes through
`URL.__new__`. -/
theorem relative_eq_URL_new (u other : List Char) :
    ∃ x, relative u other = URL_new x := by
  unfold relative
  by_cases h1 : (urlsplit other).scheme ≠ []
  · exact ⟨other, by rw [if_pos h1]⟩
  · by_cases h2 : (urlsplit other).netloc ≠ []
    · exact ⟨_, by rw [if_neg h1, if_pos h2]⟩
    · by_cases h3 : (urlsplit other).path ≠ []
      · exact ⟨_, by rw [if_neg h1, if_neg h2, if_pos h3]⟩
      · by_cases h4 : (urlsplit other).query ≠ []
        · exact ⟨_, by rw [if_neg h1, if_neg h2, if_neg h3, if_pos h4]⟩
        · by_cases h5 : (urlsplit other).fragment ≠ []
          · exact ⟨_, by rw [if_neg h1, if_neg h2, if_neg h3, if_neg h4, if_pos h5]⟩
          · exact ⟨_, by rw [if_neg h1, if_neg h2, if_neg h3, if_neg h4, if_neg h5]⟩

/-! ## Claim theorems -/

/-- C2: top-level `URL` construction fails with `IsEmpty` (the spec's
`EmptyInput`) exactly on the empty string; with `SchemeDoesNotExist`
(`MissingScheme`) exactly on a non-empty string with an empty scheme; with
`HostnameDoesNotExist` (`MissingOrInvalidHostname`) exactly when, the earlier
checks passing, the host is absent or has fewer than two dotted labels
(the three checks run in that order).  In particular `URL("http://com")`
fails, `URL("http://google.com")` succeeds, and a successful construction
returns the input string itself. -/
theorem C2_construction_failure_taxonomy :
    (∀ s : List Char,
      (URL_new s = .error .IsEmpty ↔ s = []) ∧
      (URL_new s = .error .SchemeDoesNotExist ↔ s ≠ [] ∧ (urlsplit s).scheme = []) ∧
      (URL_new s = .error .HostnameDoesNotExist ↔
        s ≠ [] ∧ (urlsplit s).scheme ≠ [] ∧
          (hostnameOf (urlsplit s).netloc = [] ∨
           (domainsOf (urlsplit s).netloc).length < 2)) ∧
      (∀ r, URL_new s = .ok r → r = s)) ∧
    URL_new (cs "http://com") = .error .HostnameDoesNotExist ∧
    URL_new (cs "http://google.com") = .ok (cs "http://google.com") := by
  refine ⟨?_, by decide, by decide⟩
  intro s
  unfold URL_new
  by_cases h1 : s = [] <;>
    by_cases h2 : (urlsplit s).scheme = [] <;>
      by_cases h3 : hostnameOf (urlsplit s).netloc = [] ∨
          (domainsOf (urlsplit s).netloc).length < 2 <;>
        simp [h1, h2, h3]

/-- Witness for C2 at concrete inputs. -/
theorem C2_witness :
    URL_new (cs "") = .error .IsEmpty ∧ URL_new (cs "http://com") ≠ .ok (cs "http://com") := by
  constructor
  · exact ((C2_construction_failure_taxonomy.1 (cs "")).1).2 (by decide)
  · intro hok
    have := ((C2_construction_failure_taxonomy.1 (cs "http://com")).2.2.2) _ hok
    rw [this] at hok
    rw [C2_construction_failure_taxonomy.2.1] at hok
    cases hok

/-- C3 (amended): in urlblocks, whenever `URL.relative` returns a value the
value is a validated top-level `URL` — it satisfies all the construction
invariants (every branch of the cascade re-wraps its candidate in the
validating type).  In urlstring, by contrast, `URLString.relative` returns
the unvalidated relative-reference variant; see the counterexample. -/
theorem C3_relative_always_validated :
    ∀ u other r, relative u other = .ok r → validURL r := by
  intro u other r h
  obtain ⟨x, hx⟩ := relative_eq_URL_new u other
  rw [hx] at h
  obtain ⟨he, hv⟩ := URL_new_ok_inv h
  exact he ▸ hv

/-- Witness for C3 at a concrete input. -/
theorem C3_witness :
    validURL (cs "http://www.google.com/a/b/d/e/f") :=
  C3_relative_always_validated (cs "http://www.google.com/a/b/c/") (cs "../d/e/f")
    (cs "http://www.google.com/a/b/d/e/f") (by decide)

/-- C3 counterexample: `URLString.relative` (urlstring.py) returns the raw
relative-reference value without validating it: on base
`http://google.com/a` and reference `mailto:x` it returns `mailto:x`,
a value that is not a valid top-level URL (its construction would fail with
a hostname error), while the urlblocks version raises. -/
theorem C3_counterexample :
    URLString_relative (cs "http://google.com/a") (cs "mailto:x") = .ok (cs "mailto:x") ∧
    URL_new (cs "mailto:x") = .error .HostnameDoesNotExist ∧
    relative (cs "http://google.com/a") (cs "mailto:x") = .error .HostnameDoesNotExist := by
  refine ⟨by decide, by decide, by decide⟩

/-- C10: every `with_*`/`without_*` derivation on a valid `URL` re-runs the
construction validation, so `with_netloc u ""` raises the hostname error and
`with_scheme u ""` raises the scheme error, for every valid URL `u`. -/
theorem C10_replace_revalidates :
    ∀ u : List Char, validURL u →
      with_netloc u [] = .error .HostnameDoesNotExist ∧
      with_scheme u [] = .error .SchemeDoesNotExist := by
  intro u hu
  have hs := validURL_scheme hu
  have hs0 : (urlsplit u).scheme ≠ [] := validScheme_ne_nil hs
  have hn0 : (urlsplit u).netloc ≠ [] := validURL_netloc_ne hu
  constructor
  · unfold with_netloc
    have hsplit := urlsplit_rawReplace u (fun c => { c with netloc := [] })
      (by simpa using hs) (by simp) (by simpa using (urlsplit_path_wf u).1)
      (by simpa using (urlsplit_path_wf u).2) (by simpa using urlsplit_query_wf u)
    unfold URL_new
    rw [if_neg (by
      exact urlunsplit_ne_nil _ (by simpa using hs0))]
    rw [if_neg (by
      rw [hsplit]
      simpa using hs0)]
    rw [if_pos (by
      rw [hsplit]
      exact Or.inl (by rw [hostnameOf_nil]))]
  · unfold with_scheme
    have hhead : (rawReplace u (fun c => { c with scheme := [] })).head? = some '/' := by
      unfold rawReplace
      exact urlunsplit_head_slash _ rfl (by simpa using hn0)
    have hne : rawReplace u (fun c => { c with scheme := [] }) ≠ [] := by
      intro he
      rw [he] at hhead
      cases hhead
    unfold URL_new
    rw [if_neg hne, if_pos (scheme_nil_of_head_slash hhead)]

/-- Witness for C10 at a concrete input. -/
theorem C10_witness :
    with_netloc (cs "http://google.com/a") [] = .error .HostnameDoesNotExist ∧
    with_scheme (cs "http://google.com/a") [] = .error .SchemeDoesNotExist :=
  C10_replace_revalidates (cs "http://google.com/a") (by decide)

/-- Replacing components of a valid URL while keeping its scheme and netloc
passes re-validation. -/
theorem URL_new_rawReplace_ok {u : List Char} (hu : validURL u) (f : SplitURL → SplitURL)
    (hs : (f (urlsplit u)).scheme = (urlsplit u).scheme)
    (hf : (f (urlsplit u)).netloc = (urlsplit u).netloc)
    (hpq : '?' ∉ (f (urlsplit u)).path) (hpf : '#' ∉ (f (urlsplit u)).path)
    (hqf : '#' ∉ (f (urlsplit u)).query) :
    URL_new (rawReplace u f) = .ok (rawReplace u f) := by
  have hvs := validURL_scheme hu
  have hs0 : (urlsplit u).scheme ≠ [] := validScheme_ne_nil hvs
  have hsplit := urlsplit_rawReplace u f (by rw [hs]; exact hvs)
    (by rw [hf]; exact urlsplit_netloc_wf u) hpq hpf hqf
  have h3 := (validURL_iff.1 hu).2.2
  unfold URL_new
  rw [if_neg (show ¬ rawReplace u f = [] from
    urlunsplit_ne_nil _ (by rw [hs]; exact hs0))]
  rw [if_neg (by rw [hsplit]; simpa [hs] using hs0)]
  rw [if_neg (by rw [hsplit]; simpa [hf] using h3)]

/-- C5: `from_iri` splits the IRI, IDNA-encodes the netloc (failing with an
encoding error when that is impossible — e.g. an empty domain label),
percent-encodes the UTF-8 bytes of the path with safe set `/%;`, of the
query with safe set `=&%` and of the fragment with safe set `%`, reassembles
the five components and validates the result as a top-level `URL`; on the
source's doctest `https://éxample.com/påth` it produces
`https://xn--xample-9ua.com/p%C3%A5th`. -/
theorem C5_from_iri_pipeline :
    (∀ iri : List Char,
      (idnaEncode (urlsplit iri).netloc = none → from_iri iri = .error .EncodingFailure) ∧
      (∀ n, idnaEncode (urlsplit iri).netloc = some n →
        from_iri iri = URL_new (urlunsplit ⟨(urlsplit iri).scheme, n,
          path_encode (cs "/%;") (utf8Encode (urlsplit iri).path),
          path_encode (cs "=&%") (utf8Encode (urlsplit iri).query),
          path_encode (cs "%") (utf8Encode (urlsplit iri).fragment)⟩))) ∧
    from_iri (cs "https://\u00e9xample.com/p\u00e5th") =
      .ok (cs "https://xn--xample-9ua.com/p%C3%A5th") ∧
    from_iri (cs "http://a..b/") = .error .EncodingFailure := by
  refine ⟨?_, by decide, by decide⟩
  intro iri
  constructor
  · intro h
    simp only [from_iri, h]
  · intro n h
    simp only [from_iri, h]

/-- Witness for C5 at a concrete input. -/
theorem C5_witness :
    from_iri (cs "http://a..b/") = .error .EncodingFailure :=
  (C5_from_iri_pipeline.1 (cs "http://a..b/")).1 (by decide)

/-- C8 (amended): the two implementations share the same construction
validation, and their `relative` cascades compute the same string — but
`URL.relative` re-validates every branch while `URLString.relative` returns
branches 1–5 unvalidated, so urlblocks raises in cases where urlstring
returns a value: whenever the urlblocks version succeeds the urlstring
version returns the identical string, and on a valid base the urlstring
version never fails at all. -/
theorem C8_equivalence_on_success :
    (∀ s : List Char, URLString_new s = URL_new s) ∧
    (∀ u other r, relative u other = .ok r → URLString_relative u other = .ok r) ∧
    (∀ u other, validURL u → ∃ r, URLString_relative u other = .ok r) := by
  refine ⟨fun s => rfl, ?_, ?_⟩
  · intro u other r h
    unfold relative at h
    unfold URLString_relative
    by_cases h1 : (urlsplit other).scheme ≠ []
    · rw [if_pos h1] at h ⊢
      rw [(URL_new_ok_inv h).1]
    · rw [if_neg h1] at h ⊢
      by_cases h2 : (urlsplit other).netloc ≠ []
      · rw [if_pos h2] at h ⊢
        rw [(URL_new_ok_inv h).1]
      · rw [if_neg h2] at h ⊢
        by_cases h3 : (urlsplit other).path ≠ []
        · rw [if_pos h3] at h ⊢
          rw [(URL_new_ok_inv h).1]
        · rw [if_neg h3] at h ⊢
          by_cases h4 : (urlsplit other).query ≠ []
          · rw [if_pos h4] at h ⊢
            rw [(URL_new_ok_inv h).1]
          · rw [if_neg h4] at h ⊢
            by_cases h5 : (urlsplit other).fragment ≠ []
            · rw [if_pos h5] at h ⊢
              rw [(URL_new_ok_inv h).1]
            · rw [if_neg h5] at h ⊢
              exact h
  · intro u other hu
    unfold URLString_relative
    by_cases h1 : (urlsplit other).scheme ≠ []
    · exact ⟨_, by rw [if_pos h1]⟩
    · by_cases h2 : (urlsplit other).netloc ≠ []
      · exact ⟨_, by rw [if_neg h1, if_pos h2]⟩
      · by_cases h3 : (urlsplit other).path ≠ []
        · exact ⟨_, by rw [if_neg h1, if_neg h2, if_pos h3]⟩
        · by_cases h4 : (urlsplit other).query ≠ []
          · exact ⟨_, by rw [if_neg h1, if_neg h2, if_neg h3, if_pos h4]⟩
          · by_cases h5 : (urlsplit other).fragment ≠ []
            · exact ⟨_, by
                rw [if_neg h1, if_neg h2, if_neg h3, if_neg h4, if_pos h5]⟩
            · have hok := URL_new_rawReplace_ok hu (fun c => { c with fragment := [] })
                rfl rfl (urlsplit_path_wf u).1 (urlsplit_path_wf u).2 (urlsplit_query_wf u)
              refine ⟨rawReplace u (fun c => { c with fragment := [] }), ?_⟩
              rw [if_neg h1, if_neg h2, if_neg h3, if_neg h4, if_neg h5]
              have heq : URLString_new (rawReplace u (fun c => { c with fragment := [] })) =
                  URL_new (rawReplace u (fun c => { c with fragment := [] })) := rfl
              rw [heq, hok]

/-- Witness for C8 at concrete inputs. -/
theorem C8_witness :
    URLString_relative (cs "http://www.google.com/a/b/c/") (cs "../d/e/f") =
      .ok (cs "http://www.google.com/a/b/d/e/f") :=
  C8_equivalence_on_success.2.1 (cs "http://www.google.com/a/b/c/") (cs "../d/e/f")
    (cs "http://www.google.com/a/b/d/e/f") (by decide)

/-- C8 counterexample: the implementations do not fail under the same
conditions — resolving the reference `mailto:x` against
`http://google.com/a` raises a hostname-validation error in urlblocks but
returns the string `mailto:x` in urlstring. -/
theorem C8_counterexample :
    relative (cs "http://google.com/a") (cs "mailto:x") = .error .HostnameDoesNotExist ∧
    URLString_relative (cs "http://google.com/a") (cs "mailto:x") = .ok (cs "mailto:x") := by
  exact ⟨by decide, by decide⟩

/-- Rebuilding with one more field replaced, given the split of the
intermediate string. -/
theorem rawReplace_of_split {x : List Char} {c : SplitURL} (hx : urlsplit x = c)
    (f : SplitURL → SplitURL) : rawReplace x f = urlunsplit (f c) := by
  unfold rawReplace
  rw [hx]

/-- The three-step chain `with_scheme` / `with_netloc` / `with_path` used by
branches 3 and 4 of the `relative` cascade, collapsed into one join. -/
theorem chain3_eq (S N PR other : List Char)
    (hvs : validScheme S = true)
    (hnwf : ∀ x ∈ N, isNetlocEnd x = false)
    (hn2 : (urlsplit other).netloc = []) :
    rawReplace (rawReplace (rawReplace other (fun c => { c with scheme := S }))
        (fun c => { c with netloc := N })) (fun c => { c with path := PR }) =
      urlunsplit ⟨S, N, PR, (urlsplit other).query, (urlsplit other).fragment⟩ := by
  have hopwf := urlsplit_path_wf other
  have hoqwf := urlsplit_query_wf other
  have e1 : urlsplit (rawReplace other (fun c => { c with scheme := S })) =
      ⟨S, [], (urlsplit other).path, (urlsplit other).query, (urlsplit other).fragment⟩ := by
    have h := urlsplit_urlunsplit
      ⟨S, (urlsplit other).netloc, (urlsplit other).path,
       (urlsplit other).query, (urlsplit other).fragment⟩
      hvs (fun x hx => urlsplit_netloc_wf other x hx) hopwf.1 hopwf.2 hoqwf
    have hr : rawReplace other (fun c => { c with scheme := S }) =
        urlunsplit ⟨S, (urlsplit other).netloc, (urlsplit other).path,
          (urlsplit other).query, (urlsplit other).fragment⟩ := rfl
    rw [hr, h, hn2]
    simp [normPath]
  have e2 : urlsplit (rawReplace (rawReplace other (fun c => { c with scheme := S }))
      (fun c => { c with netloc := N })) =
      ⟨S, N, normPath N (urlsplit other).path,
       (urlsplit other).query, (urlsplit other).fragment⟩ := by
    have hr : rawReplace (rawReplace other (fun c => { c with scheme := S }))
        (fun c => { c with netloc := N }) =
        urlunsplit ⟨S, N, (urlsplit other).path,
          (urlsplit other).query, (urlsplit other).fragment⟩ :=
      rawReplace_of_split e1 _
    rw [hr]
    exact urlsplit_urlunsplit
      ⟨S, N, (urlsplit other).path, (urlsplit other).query, (urlsplit other).fragment⟩
      hvs hnwf hopwf.1 hopwf.2 hoqwf
  exact rawReplace_of_split e2 _

/-- Branch 5's four-step chain, which also replaces the query. -/
theorem chain4_eq (S N P2 Q2 other : List Char)
    (hvs : validScheme S = true)
    (hnwf : ∀ x ∈ N, isNetlocEnd x = false)
    (hp2q : '?' ∉ P2) (hp2f : '#' ∉ P2)
    (hn2 : (urlsplit other).netloc = []) :
    rawReplace (rawReplace (rawReplace (rawReplace other
        (fun c => { c with scheme := S }))
        (fun c => { c with netloc := N }))
        (fun c => { c with path := P2 }))
        (fun c => { c with query := Q2 }) =
      urlunsplit ⟨S, N, normPath N P2, Q2, (urlsplit other).fragment⟩ := by
  have hoqwf := urlsplit_query_wf other
  have e3 : urlsplit (rawReplace (rawReplace (rawReplace other
      (fun c => { c with scheme := S }))
      (fun c => { c with netloc := N }))
      (fun c => { c with path := P2 })) =
      ⟨S, N, normPath N P2, (urlsplit other).query, (urlsplit other).fragment⟩ := by
    have hr := chain3_eq S N P2 other hvs hnwf hn2
    rw [hr]
    exact urlsplit_urlunsplit
      ⟨S, N, P2, (urlsplit other).query, (urlsplit other).fragment⟩
      hvs hnwf hp2q hp2f hoqwf
  exact rawReplace_of_split e3 _

/-- C1: `relative` follows the strict six-branch priority chain on the
reference's present components: (1) a reference with a scheme is taken
unchanged; (2) else one with a netloc takes the base's scheme; (3) else a
non-empty path takes the base's scheme and netloc with the RFC-3986 merge of
the two paths (so `http://www.google.com/a/b/c/` relative `../d/e/f` is
`http://www.google.com/a/b/d/e/f`); (4) else a non-empty query takes the
base's scheme, netloc and path, keeping the reference's query and fragment;
(5) else a non-empty fragment also takes the base's query; (6) else the
result is the base without its fragment.  Every branch re-wraps its
candidate in the validating constructor `URL_new`. -/
theorem C1_relative_cascade :
    relative (cs "http://www.google.com/a/b/c/") (cs "../d/e/f") =
      .ok (cs "http://www.google.com/a/b/d/e/f") ∧
    ∀ u other, validURL u →
      ((urlsplit other).scheme ≠ [] → relative u other = URL_new other) ∧
      ((urlsplit other).scheme = [] → (urlsplit other).netloc ≠ [] →
        relative u other = URL_new (urlunsplit ⟨(urlsplit u).scheme,
          (urlsplit other).netloc, (urlsplit other).path,
          (urlsplit other).query, (urlsplit other).fragment⟩)) ∧
      ((urlsplit other).scheme = [] → (urlsplit other).netloc = [] →
        (urlsplit other).path ≠ [] →
        relative u other = URL_new (urlunsplit ⟨(urlsplit u).scheme,
          (urlsplit u).netloc,
          path_relative (urlsplit u).path (urlsplit other).path,
          (urlsplit other).query, (urlsplit other).fragment⟩)) ∧
      ((urlsplit other).scheme = [] → (urlsplit other).netloc = [] →
        (urlsplit other).path = [] → (urlsplit other).query ≠ [] →
        relative u other = URL_new (urlunsplit ⟨(urlsplit u).scheme,
          (urlsplit u).netloc, (urlsplit u).path,
          (urlsplit other).query, (urlsplit other).fragment⟩)) ∧
      ((urlsplit other).scheme = [] → (urlsplit other).netloc = [] →
        (urlsplit other).path = [] → (urlsplit other).query = [] →
        (urlsplit other).fragment ≠ [] →
        relative u other = URL_new (urlunsplit ⟨(urlsplit u).scheme,
          (urlsplit u).netloc, (urlsplit u).path,
          (urlsplit u).query, (urlsplit other).fragment⟩)) ∧
      ((urlsplit other).scheme = [] → (urlsplit other).netloc = [] →
        (urlsplit other).path = [] → (urlsplit other).query = [] →
        (urlsplit other).fragment = [] →
        relative u other = URL_new (urlunsplit ⟨(urlsplit u).scheme,
          (urlsplit u).netloc, (urlsplit u).path,
          (urlsplit u).query, []⟩)) := by
  refine ⟨by decide, ?_⟩
  intro u other hu
  have hvs : validScheme (urlsplit u).scheme = true := validURL_scheme hu
  have hnwf := urlsplit_netloc_wf u
  have hupwf := urlsplit_path_wf u
  refine ⟨?_, ?_, ?_, ?_, ?_, ?_⟩
  · intro h1
    unfold relative
    rw [if_pos h1]
  · intro h1 h2
    unfold relative
    rw [if_neg (by simp [h1]), if_pos h2]
    exact congrArg URL_new rfl
  · intro h1 h2 h3
    unfold relative
    rw [if_neg (by simp [h1]), if_neg (by simp [h2]), if_pos h3]
    exact congrArg URL_new (chain3_eq (urlsplit u).scheme (urlsplit u).netloc
      (path_relative (urlsplit u).path (urlsplit other).path) other hvs hnwf h2)
  · intro h1 h2 h3 h4
    unfold relative
    rw [if_neg (by simp [h1]), if_neg (by simp [h2]), if_neg (by simp [h3]), if_pos h4]
    exact congrArg URL_new (chain3_eq (urlsplit u).scheme (urlsplit u).netloc
      (urlsplit u).path other hvs hnwf h2)
  · intro h1 h2 h3 h4 h5
    unfold relative
    rw [if_neg (by simp [h1]), if_neg (by simp [h2]), if_neg (by simp [h3]),
      if_neg (by simp [h4]), if_pos h5]
    have h6 := chain4_eq (urlsplit u).scheme (urlsplit u).netloc
      (urlsplit u).path (urlsplit u).query other hvs hnwf hupwf.1 hupwf.2 h2
    rw [validURL_normPath hu] at h6
    exact congrArg URL_new h6
  · intro h1 h2 h3 h4 h5
    unfold relative
    rw [if_neg (by simp [h1]), if_neg (by simp [h2]), if_neg (by simp [h3]),
      if_neg (by simp [h4]), if_neg (by simp [h5])]
    exact congrArg URL_new rfl

/-- Witness for C1 at a concrete input (branch 3 of the cascade). -/
theorem C1_witness :
    relative (cs "http://google.com") (cs "d") =
      URL_new (urlunsplit ⟨(urlsplit (cs "http://google.com")).scheme,
        (urlsplit (cs "http://google.com")).netloc,
        path_relative (urlsplit (cs "http://google.com")).path
          (urlsplit (cs "d")).path,
        (urlsplit (cs "d")).query, (urlsplit (cs "d")).fragment⟩) :=
  ((C1_relative_cascade.2 (cs "http://google.com") (cs "d") (by decide)).2.2.1)
    (by decide) (by decide) (by decide)

/-! ## Facts about `replaceFirst` (Python `str.replace(old, new, 1)`) -/

theorem replaceFirst_head_occ {old : List Char} (new : List Char) {l : List Char}
    (h : old.isPrefixOf l = true) : replaceFirst old new l = new ++ l.drop old.length := by
  cases l with
  | nil =>
    cases old with
    | nil => simp [replaceFirst]
    | cons c ct => simp [List.isPrefixOf] at h
  | cons c rest => simp [replaceFirst, h]

theorem replaceFirst_of_no_occ {old new l : List Char}
    (h : ¬ ∃ a b, l = a ++ old ++ b) : replaceFirst old new l = l := by
  induction l with
  | nil =>
    have hne : old ≠ [] := by
      intro he
      exact h ⟨[], [], by simp [he]⟩
    simp [replaceFirst, hne]
  | cons c rest ih =>
    have hnp : ¬ old.isPrefixOf (c :: rest) = true := by
      intro hb
      obtain ⟨t, ht⟩ := List.isPrefixOf_iff_prefix.1 hb
      exact h ⟨[], t, by simp [ht.symm]⟩
    have h' : ¬ ∃ a b, rest = a ++ old ++ b := by
      rintro ⟨a, b, hab⟩
      exact h ⟨c :: a, b, by simp [hab]⟩
    simp only [replaceFirst, hnp, if_false, reduceIte]
    exact congrArg (c :: ·) (ih h')

theorem replaceFirst_cons_neg {old : List Char} (new : List Char) {c : Char} {rest : List Char}
    (h : ¬ old.isPrefixOf (c :: rest) = true) :
    replaceFirst old new (c :: rest) = c :: replaceFirst old new rest := by
  simp [replaceFirst, h]

theorem replaceFirst_of_unique_suffix {old l : List Char} (new : List Char) {front : List Char}
    (hocc : ∀ a b, l = a ++ old ++ b → b = [])
    (hsuf : l = front ++ old) :
    replaceFirst old new l = front ++ new := by
  induction front generalizing l with
  | nil =>
    have hl : l = old := by simpa using hsuf
    subst hl
    simp only [List.nil_append]
    cases hol : l with
    | nil => simp [replaceFirst]
    | cons c rest =>
      have hp : (c :: rest).isPrefixOf (c :: rest) = true :=
        List.isPrefixOf_iff_prefix.2 ⟨[], by simp⟩
      rw [replaceFirst_head_occ new hp]
      simp
  | cons x xs ih =>
    have hnp : ¬ old.isPrefixOf (x :: (xs ++ old)) = true := by
      intro hb
      obtain ⟨t, ht⟩ := List.isPrefixOf_iff_prefix.1 hb
      have hto : t = [] := by
        refine hocc [] t ?_
        rw [hsuf]
        simp [ht.symm]
      subst hto
      have := congrArg List.length ht
      simp at this
      omega
    have hocc' : ∀ a b, xs ++ old = a ++ old ++ b → b = [] := by
      intro a b hab
      refine List.length_eq_zero.1 ?_
      have hb := hocc (x :: a) b (by rw [hsuf]; simp [hab])
      rw [hb]
      rfl
    have hl2 : l = x :: (xs ++ old) := by
      rw [hsuf]
      simp
    rw [hl2, replaceFirst_cons_neg new hnp, ih hocc' rfl]
    simp

/-- The occurrence-forcing argument: in `PRE ++ '?' :: Q ++ '#' :: F`, any
occurrence of the pattern `PRE ++ '#' :: F` must be the final suffix, because
the pattern contains a `#` and everything before the fragment separator is
`#`-free. -/
theorem occ_suffix_only {PRE Q F : List Char} (hP : '#' ∉ PRE) (hQ : '#' ∉ Q) :
    ∀ a b, PRE ++ '?' :: (Q ++ '#' :: F) = a ++ (PRE ++ '#' :: F) ++ b → b = [] := by
  intro a b heq
  have h1 : splitAtFirst '#' (PRE ++ '?' :: (Q ++ '#' :: F)) = (PRE ++ '?' :: Q, some F) := by
    have hs : PRE ++ '?' :: (Q ++ '#' :: F) = (PRE ++ '?' :: Q) ++ '#' :: F := by simp
    rw [hs]
    refine splitAtFirst_append _ ?_
    intro hm
    rcases List.mem_append.1 hm with h | h
    · exact hP h
    · rcases List.mem_cons.1 h with h | h
      · exact absurd h (by decide)
      · exact hQ h
  cases hsa : splitAtFirst '#' a with
  | mk a1 oa =>
    cases oa with
    | none =>
      have hna : '#' ∉ a := by
        have := splitAtFirst_eq_none hsa
        rw [this.1]
        exact this.2
      have h2 : splitAtFirst '#' (a ++ (PRE ++ '#' :: F) ++ b) = (a ++ PRE, some (F ++ b)) := by
        have hs : a ++ (PRE ++ '#' :: F) ++ b = (a ++ PRE) ++ '#' :: (F ++ b) := by simp
        rw [hs]
        refine splitAtFirst_append _ ?_
        intro hm
        rcases List.mem_append.1 hm with h | h
        · exact hna h
        · exact hP h
      rw [heq, h2] at h1
      rw [Prod.mk.injEq] at h1
      have hFb : F ++ b = F := by
        have := h1.2
        simpa using this
      have := congrArg List.length hFb
      simp at this
      exact this
    | some a2 =>
      have ha : a = a1 ++ '#' :: a2 := (splitAtFirst_eq_some hsa).1
      have hna1 : '#' ∉ a1 := (splitAtFirst_eq_some hsa).2
      have h2 : splitAtFirst '#' (a ++ (PRE ++ '#' :: F) ++ b) =
          (a1, some (a2 ++ (PRE ++ '#' :: F) ++ b)) := by
        have hs : a ++ (PRE ++ '#' :: F) ++ b = a1 ++ '#' :: (a2 ++ (PRE ++ '#' :: F) ++ b) := by
          rw [ha]
          simp
        rw [hs]
        exact splitAtFirst_append _ hna1
      rw [heq, h2] at h1
      rw [Prod.mk.injEq] at h1
      have hlen : a2 ++ (PRE ++ '#' :: F) ++ b = F := by
        have := h1.2
        simpa using this
      have := congrArg List.length hlen
      simp at this
      omega

/-! ## The query-stripped URL and the trailing-slash operations -/

/-- The string `self.without_query()` computes (before re-wrapping). -/
def strip_query (u : List Char) : List Char :=
  rawReplace u (fun c => { c with query := [] })

/-- Ensure exactly one trailing slash on a path. -/
def addSlash (p : List Char) : List Char :=
  if p.getLast? = some '/' then p else p ++ ['/']

/-- Remove exactly one trailing slash from a path. -/
def dropSlash (p : List Char) : List Char :=
  if p.getLast? = some '/' then p.dropLast else p

theorem without_query_ok {u : List Char} (hu : validURL u) :
    without_query u = .ok (strip_query u) :=
  URL_new_rawReplace_ok hu _ rfl rfl (urlsplit_path_wf u).1 (urlsplit_path_wf u).2 (by simp)

theorem with_trailing_slash_eq {u : List Char} (hu : validURL u) :
    with_trailing_slash u = .ok (if (strip_query u).getLast? = some '/' then u
      else replaceFirst (strip_query u) (strip_query u ++ ['/']) u) := by
  unfold with_trailing_slash
  rw [without_query_ok hu]
  show (if (strip_query u).getLast? = some '/' then Except.ok u
    else Except.ok (replaceFirst (strip_query u) (strip_query u ++ ['/']) u)) = _
  by_cases hL : (strip_query u).getLast? = some '/' <;> simp [hL]

theorem without_trailing_slash_eq {u : List Char} (hu : validURL u) :
    without_trailing_slash u = .ok (if (strip_query u).getLast? = some '/' then
      replaceFirst (strip_query u) (strip_query u).dropLast u else u) := by
  unfold without_trailing_slash
  rw [without_query_ok hu]
  show (if (strip_query u).getLast? = some '/' then
      Except.ok (replaceFirst (strip_query u) (strip_query u).dropLast u)
    else Except.ok u) = _
  by_cases hL : (strip_query u).getLast? = some '/' <;> simp [hL]

theorem strip_query_decomp {u : List Char} (hu : validURL u) :
    ∃ qo fo,
      u = ((urlsplit u).scheme ++ ':' :: '/' :: '/' ::
            ((urlsplit u).netloc ++ (urlsplit u).path)) ++
          (optPart '?' qo ++ optPart '#' fo) ∧
      (urlsplit u).query = qo.getD [] ∧ (urlsplit u).fragment = fo.getD [] ∧
      ((urlsplit u).path = [] ∨ (urlsplit u).path.head? = some '/') ∧
      strip_query u = ((urlsplit u).scheme ++ ':' :: '/' :: '/' ::
            ((urlsplit u).netloc ++ (urlsplit u).path)) ++
          optPart '#' (if (urlsplit u).fragment = [] then none
            else some (urlsplit u).fragment) := by
  obtain ⟨qo, fo, hudec, hq, hf, hshape⟩ := validURL_decomp u hu
  refine ⟨qo, fo, ?_, hq, hf, hshape, ?_⟩
  · conv_lhs => rw [hudec]
    simp [List.append_assoc]
  · have heq : strip_query u = urlunsplit ⟨(urlsplit u).scheme, (urlsplit u).netloc,
        (urlsplit u).path, [], (urlsplit u).fragment⟩ := rfl
    rw [heq, urlunsplit_explicit _ _ _ _ _
      (validScheme_ne_nil (validURL_scheme hu)) (Or.inl (validURL_netloc_ne hu))]
    have hnp : normPath (urlsplit u).netloc (urlsplit u).path = (urlsplit u).path :=
      validURL_normPath hu
    rw [hnp]
    simp [optPart, List.append_assoc]

theorem getLast?_cons_ne {c : Char} {l : List Char} (h : l ≠ []) :
    (c :: l).getLast? = l.getLast? := by
  have := getLast?_append_right (a := [c]) l h
  simpa using this

/-- The query-stripped base ends in `/` exactly when the path does (the
netloc is non-empty and contains no `/`). -/
theorem PRE_getLast (s n p : List Char) (hn : n ≠ [])
    (hnwf : ∀ x ∈ n, isNetlocEnd x = false) :
    ((s ++ ':' :: '/' :: '/' :: (n ++ p)).getLast? = some '/') ↔
      (p.getLast? = some '/') := by
  rw [getLast?_append_right _ (by simp)]
  by_cases hp0 : p = []
  · subst hp0
    simp only [List.append_nil]
    rw [getLast?_cons_ne (by simp), getLast?_cons_ne (by simp),
      getLast?_cons_ne hn]
    constructor
    · intro h
      have hm := List.mem_of_mem_getLast? h
      have := hnwf _ hm
      simp [isNetlocEnd] at this
    · intro h
      simp at h
  · rw [getLast?_cons_ne (by simp), getLast?_cons_ne (by simp),
      getLast?_cons_ne (by simp [hp0]), getLast?_append_right _ hp0]

theorem PRE_dropLast (s n p : List Char) (hp : p ≠ []) :
    (s ++ ':' :: '/' :: '/' :: (n ++ p)).dropLast =
      s ++ ':' :: '/' :: '/' :: (n ++ p.dropLast) := by
  rw [show s ++ ':' :: '/' :: '/' :: (n ++ p) = (s ++ [':', '/', '/'] ++ n) ++ p by simp]
  rw [List.dropLast_append_of_ne_nil _ hp]
  simp

/-- `urlsplit` of the `PRE ++ optional-query ++ optional-fragment` shape. -/
theorem urlsplit_assemble2 (s n p : List Char) (qo fo : Option (List Char))
    (hs : validScheme s = true)
    (hn : ∀ x ∈ n, isNetlocEnd x = false)
    (hp1 : p = [] ∨ p.head? = some '/')
    (hpq : '?' ∉ p) (hpf : '#' ∉ p)
    (hq : ∀ q, qo = some q → '#' ∉ q) :
    urlsplit ((s ++ ':' :: '/' :: '/' :: (n ++ p)) ++ (optPart '?' qo ++ optPart '#' fo)) =
      ⟨s, n, p, qo.getD [], fo.getD []⟩ := by
  have hsh : (s ++ ':' :: '/' :: '/' :: (n ++ p)) ++ (optPart '?' qo ++ optPart '#' fo) =
      s ++ ':' :: '/' :: '/' :: (n ++ (p ++ optPart '?' qo ++ optPart '#' fo)) := by
    simp [List.append_assoc]
  rw [hsh]
  exact urlsplit_assemble s n p qo fo hs hn hp1 hpq hpf hq

/-- C4 (amended): for every valid URL whose fragment is empty, the
trailing-slash operations strip the query, add (respectively remove) exactly
one trailing `/` at the end of the path, and restore the query: the result's
path is the input's path with one `/` ensured (resp. removed) at its end and
the scheme, netloc, query and fragment components are unchanged.  (With a
non-empty fragment the string replacement instead appends or removes the
slash after the fragment; see the counterexample.) -/
theorem C4_trailing_slash_fragmentless :
    ∀ u, validURL u → (urlsplit u).fragment = [] →
      (∃ r, with_trailing_slash u = .ok r ∧
        urlsplit r = ⟨(urlsplit u).scheme, (urlsplit u).netloc,
          addSlash (urlsplit u).path, (urlsplit u).query, []⟩) ∧
      (∃ r, without_trailing_slash u = .ok r ∧
        urlsplit r = ⟨(urlsplit u).scheme, (urlsplit u).netloc,
          dropSlash (urlsplit u).path, (urlsplit u).query, []⟩) := by
  intro u hu hf0
  obtain ⟨qo, fo, hudec, hq, hf, hshape, hsq⟩ := strip_query_decomp hu
  rw [hf0] at hsq
  simp only [reduceIte, optPart, List.append_nil] at hsq
  have hvs := validURL_scheme hu
  have hn := validURL_netloc_ne hu
  have hnwf := urlsplit_netloc_wf u
  have hpwf := urlsplit_path_wf u
  have hqwf := urlsplit_query_wf u
  have hqo : ∀ q', qo = some q' → '#' ∉ q' := by
    intro q' he
    have : (urlsplit u).query = q' := by rw [hq, he]; rfl
    rw [← this]
    exact hqwf
  have heta : urlsplit u = ⟨(urlsplit u).scheme, (urlsplit u).netloc,
      (urlsplit u).path, (urlsplit u).query, (urlsplit u).fragment⟩ := rfl
  have hlast := PRE_getLast (urlsplit u).scheme (urlsplit u).netloc (urlsplit u).path hn hnwf
  have hpre : ((urlsplit u).scheme ++ ':' :: '/' :: '/' ::
      ((urlsplit u).netloc ++ (urlsplit u).path)).isPrefixOf u = true :=
    List.isPrefixOf_iff_prefix.2 ⟨optPart '?' qo ++ optPart '#' fo, hudec.symm⟩
  have hgen : ∀ (P t : List Char), u = P ++ t → u.drop P.length = t := by
    intro P t h
    rw [h]
    exact List.drop_left _ _
  have hdrop : u.drop ((urlsplit u).scheme ++ ':' :: '/' :: '/' ::
      ((urlsplit u).netloc ++ (urlsplit u).path)).length =
      optPart '?' qo ++ optPart '#' fo := hgen _ _ hudec
  have hfo0 : fo.getD [] = ([] : List Char) := by rw [← hf, hf0]
  constructor
  · rw [with_trailing_slash_eq hu, hsq]
    by_cases hpL : (urlsplit u).path.getLast? = some '/'
    · rw [if_pos (hlast.2 hpL)]
      refine ⟨u, rfl, ?_⟩
      conv_lhs => rw [heta]
      rw [hf0]
      simp only [addSlash, hpL, reduceIte]
    · rw [if_neg (fun hc => hpL (hlast.1 hc))]
      refine ⟨_, rfl, ?_⟩
      rw [replaceFirst_head_occ _ hpre, hdrop]
      have hsh : (((urlsplit u).scheme ++ ':' :: '/' :: '/' ::
          ((urlsplit u).netloc ++ (urlsplit u).path)) ++ ['/']) ++
            (optPart '?' qo ++ optPart '#' fo) =
          ((urlsplit u).scheme ++ ':' :: '/' :: '/' ::
            ((urlsplit u).netloc ++ ((urlsplit u).path ++ ['/']))) ++
            (optPart '?' qo ++ optPart '#' fo) := by
        simp [List.append_assoc]
      rw [hsh, urlsplit_assemble2 _ _ _ qo fo hvs hnwf ?_ ?_ ?_ hqo]
      · rw [← hq, hfo0]
        simp only [addSlash, hpL, reduceIte]
      · rcases hshape with hp | hp
        · right
          rw [hp]
          rfl
        · right
          cases hpp : (urlsplit u).path with
          | nil => simp [hpp] at hp
          | cons x xt =>
            rw [hpp] at hp
            simp at hp
            simp [hp]
      · intro hm
        rcases List.mem_append.1 hm with hm | hm
        · exact hpwf.1 hm
        · simp at hm
      · intro hm
        rcases List.mem_append.1 hm with hm | hm
        · exact hpwf.2 hm
        · simp at hm
  · rw [without_trailing_slash_eq hu, hsq]
    by_cases hpL : (urlsplit u).path.getLast? = some '/'
    · rw [if_pos (hlast.2 hpL)]
      refine ⟨_, rfl, ?_⟩
      have hp0 : (urlsplit u).path ≠ [] := by
        intro he
        rw [he] at hpL
        cases hpL
      rw [replaceFirst_head_occ _ hpre, hdrop]
      rw [PRE_dropLast _ _ _ hp0]
      rw [urlsplit_assemble2 _ _ _ qo fo hvs hnwf ?_ ?_ ?_ hqo]
      · rw [← hq, hfo0]
        simp only [dropSlash, hpL, reduceIte]
      · rcases hshape with hp | hp
        · exact absurd hp hp0
        · cases hpp : (urlsplit u).path with
          | nil => exact absurd hpp hp0
          | cons x xt =>
            rw [hpp] at hp
            simp at hp
            subst hp
            cases xt with
            | nil => left; rfl
            | cons y yt =>
              right
              simp [List.dropLast]
      · intro hm
        exact hpwf.1 ((List.dropLast_sublist _).subset hm)
      · intro hm
        exact hpwf.2 ((List.dropLast_sublist _).subset hm)
    · rw [if_neg (fun hc => hpL (hlast.1 hc))]
      refine ⟨u, rfl, ?_⟩
      conv_lhs => rw [heta]
      rw [hf0]
      simp only [dropSlash, hpL, reduceIte]

/-- Witness for C4 at a concrete input. -/
theorem C4_witness :
    ∃ r, with_trailing_slash (cs "http://google.com/asd?a=1") = .ok r ∧
      urlsplit r = ⟨(urlsplit (cs "http://google.com/asd?a=1")).scheme,
        (urlsplit (cs "http://google.com/asd?a=1")).netloc,
        addSlash (urlsplit (cs "http://google.com/asd?a=1")).path,
        (urlsplit (cs "http://google.com/asd?a=1")).query, []⟩ :=
  (C4_trailing_slash_fragmentless (cs "http://google.com/asd?a=1")
    (by decide) (by decide)).1

/-- C4 counterexample: on a fragment-bearing URL the `/` is appended after
the fragment, not at the end of the path: `with_trailing_slash` on
`http://google.com/p#f` yields `http://google.com/p#f/`, whose path is still
`/p` (no slash added) and whose fragment changed from `f` to `f/`. -/
theorem C4_counterexample :
    validURL (cs "http://google.com/p#f") ∧
    with_trailing_slash (cs "http://google.com/p#f") = .ok (cs "http://google.com/p#f/") ∧
    (urlsplit (cs "http://google.com/p#f/")).path = cs "/p" ∧
    (urlsplit (cs "http://google.com/p#f/")).fragment = cs "f/" ∧
    (urlsplit (cs "http://google.com/p#f")).fragment = cs "f" := by
  refine ⟨by decide, by decide, by decide, by decide, by decide⟩

/-- C9 (amended): for a valid URL with non-empty query and non-empty
fragment, provided the query-stripped string does not occur as a substring of
the URL, both trailing-slash operations return the URL unchanged regardless
of whether its path ends in `/`.  (Without the proviso the claim fails:
see the counterexample, where the query itself contains the query-stripped
form.) -/
theorem C9_trailing_slash_noop :
    ∀ u, validURL u → (urlsplit u).query ≠ [] → (urlsplit u).fragment ≠ [] →
      (¬ ∃ a b, u = a ++ strip_query u ++ b) →
      with_trailing_slash u = .ok u ∧ without_trailing_slash u = .ok u := by
  intro u hu _hq _hf hno
  rw [with_trailing_slash_eq hu, without_trailing_slash_eq hu]
  by_cases hL : (strip_query u).getLast? = some '/'
  · rw [if_pos hL, if_pos hL]
    exact ⟨rfl, congrArg Except.ok (replaceFirst_of_no_occ hno)⟩
  · rw [if_neg hL, if_neg hL]
    exact ⟨congrArg Except.ok (replaceFirst_of_no_occ hno), rfl⟩

theorem occ_iff_sub {old l : List Char} :
    (∃ a b, l = a ++ old ++ b) ↔ old <:+: l := by
  constructor
  · rintro ⟨a, b, h⟩
    exact ⟨a, b, h.symm⟩
  · rintro ⟨a, b, h⟩
    exact ⟨a, b, h.symm⟩

/-- Witness for C9 at a concrete input. -/
theorem C9_witness :
    with_trailing_slash (cs "http://google.com/p?q#f") = .ok (cs "http://google.com/p?q#f") ∧
    without_trailing_slash (cs "http://google.com/p?q#f") = .ok (cs "http://google.com/p?q#f") :=
  C9_trailing_slash_noop (cs "http://google.com/p?q#f") (by decide) (by decide) (by decide)
    (by
      rw [occ_iff_sub]
      decide)

/-- C9 counterexample: the query-stripped string can occur inside the URL —
for `http://google.com/a?http://google.com/a#f` (valid, query and fragment
non-empty) the stripped form `http://google.com/a#f` is a suffix, so
`with_trailing_slash` appends a slash after the fragment instead of
returning the URL unchanged. -/
theorem C9_counterexample :
    validURL (cs "http://google.com/a?http://google.com/a#f") ∧
    (urlsplit (cs "http://google.com/a?http://google.com/a#f")).query ≠ [] ∧
    (urlsplit (cs "http://google.com/a?http://google.com/a#f")).fragment ≠ [] ∧
    (∃ a b, cs "http://google.com/a?http://google.com/a#f" =
      a ++ strip_query (cs "http://google.com/a?http://google.com/a#f") ++ b) ∧
    with_trailing_slash (cs "http://google.com/a?http://google.com/a#f") =
      .ok (cs "http://google.com/a?http://google.com/a#f/") ∧
    cs "http://google.com/a?http://google.com/a#f/" ≠
      cs "http://google.com/a?http://google.com/a#f" := by
  refine ⟨by decide, by decide, by decide,
    ⟨cs "http://google.com/a?", [], by decide⟩, by decide, by decide⟩

/-! ## Idempotence machinery for the trailing-slash operations -/

theorem with_fix {r : List Char} (hr : validURL r)
    (h : (strip_query r).getLast? = some '/') : with_trailing_slash r = .ok r := by
  rw [with_trailing_slash_eq hr, if_pos h]

theorem without_fix {r : List Char} (hr : validURL r)
    (h : ¬ (strip_query r).getLast? = some '/') : without_trailing_slash r = .ok r := by
  rw [without_trailing_slash_eq hr, if_neg h]

/-- Whether the query-stripped URL ends in `/`, in terms of the components:
with an empty fragment it is the path that decides, otherwise the
fragment. -/
theorem strip_slash_iff {r : List Char} (hr : validURL r) :
    ((strip_query r).getLast? = some '/') ↔
      (if (urlsplit r).fragment = [] then (urlsplit r).path.getLast? = some '/'
       else (urlsplit r).fragment.getLast? = some '/') := by
  obtain ⟨qo, fo, _, _, _, _, hsq⟩ := strip_query_decomp hr
  by_cases hf0 : (urlsplit r).fragment = []
  · rw [if_pos hf0]
    rw [hf0] at hsq
    simp only [reduceIte, optPart, List.append_nil] at hsq
    rw [hsq]
    exact PRE_getLast _ _ _ (validURL_netloc_ne hr) (urlsplit_netloc_wf r)
  · rw [if_neg hf0]
    rw [if_neg hf0] at hsq
    simp only [optPart] at hsq
    rw [hsq, getLast?_append_right _ (by simp), getLast?_cons_ne hf0]

theorem validURL_of_split {r u : List Char} (hu : validURL u)
    (hsp : (urlsplit r).scheme = (urlsplit u).scheme)
    (hnl : (urlsplit r).netloc = (urlsplit u).netloc) : validURL r := by
  have hr0 : r ≠ [] := by
    intro he
    have h2 := (validURL_iff.1 hu).2.1
    rw [← hsp, he] at h2
    exact h2 rfl
  rw [validURL_iff]
  refine ⟨hr0, ?_, ?_⟩
  · rw [hsp]
    exact (validURL_iff.1 hu).2.1
  · rw [hnl]
    exact (validURL_iff.1 hu).2.2

theorem hash_not_mem_PRE {u : List Char} (hu : validURL u) :
    '#' ∉ (urlsplit u).scheme ++ ':' :: '/' :: '/' ::
      ((urlsplit u).netloc ++ (urlsplit u).path) := by
  intro hm
  rcases List.mem_append.1 hm with h | h
  · have := validScheme_chars (validURL_scheme hu) '#' h
    exact absurd this (by decide)
  · rcases List.mem_cons.1 h with h | h
    · exact absurd h (by decide)
    · rcases List.mem_cons.1 h with h | h
      · exact absurd h (by decide)
      · rcases List.mem_cons.1 h with h | h
        · exact absurd h (by decide)
        · rcases List.mem_append.1 h with h | h
          · have := urlsplit_netloc_wf u '#' h
            simp [isNetlocEnd] at this
          · exact (urlsplit_path_wf u).2 h

/-- C6 (amended): `with_trailing_slash` is idempotent on every valid URL;
`without_trailing_slash` is idempotent on every valid URL whose fragment is
empty and whose path does not end in a double slash.  (On a path ending in
`//` each application removes one slash: see the counterexample.) -/
theorem C6_trailing_slash_idempotence :
    (∀ u, validURL u →
      ∃ r, with_trailing_slash u = .ok r ∧ with_trailing_slash r = .ok r) ∧
    (∀ u, validURL u → (urlsplit u).fragment = [] →
      ¬ ((urlsplit u).path.getLast? = some '/' ∧
         (urlsplit u).path.dropLast.getLast? = some '/') →
      ∃ r, without_trailing_slash u = .ok r ∧ without_trailing_slash r = .ok r) := by
  constructor
  · intro u hu
    by_cases hL : (strip_query u).getLast? = some '/'
    · exact ⟨u, with_fix hu hL, with_fix hu hL⟩
    · obtain ⟨qo, fo, hudec, hq, hf, hshape, hsq⟩ := strip_query_decomp hu
      have hvs := validURL_scheme hu
      have hnwf := urlsplit_netloc_wf u
      have hpwf := urlsplit_path_wf u
      have hqwf := urlsplit_query_wf u
      have hqo : ∀ q', qo = some q' → '#' ∉ q' := by
        intro q' he
        have hqq : (urlsplit u).query = q' := by rw [hq, he]; rfl
        rw [← hqq]
        exact hqwf
      have hpre : ((urlsplit u).scheme ++ ':' :: '/' :: '/' ::
          ((urlsplit u).netloc ++ (urlsplit u).path)).isPrefixOf u = true :=
        List.isPrefixOf_iff_prefix.2 ⟨optPart '?' qo ++ optPart '#' fo, hudec.symm⟩
      have hgen : ∀ (P t : List Char), u = P ++ t → u.drop P.length = t := by
        intro P t h
        rw [h]
        exact List.drop_left _ _
      by_cases hf0 : (urlsplit u).fragment = []
      · -- empty fragment: the slash lands at the end of the path
        rw [hf0] at hsq
        simp only [reduceIte, optPart, List.append_nil] at hsq
        have hfo0 : fo.getD [] = ([] : List Char) := by rw [← hf, hf0]
        have hrep : replaceFirst (strip_query u) (strip_query u ++ ['/']) u =
            (strip_query u ++ ['/']) ++ (optPart '?' qo ++ optPart '#' fo) := by
          rw [hsq, replaceFirst_head_occ _ hpre, hgen _ _ hudec]
        have hrsplit : urlsplit ((strip_query u ++ ['/']) ++
            (optPart '?' qo ++ optPart '#' fo)) =
            ⟨(urlsplit u).scheme, (urlsplit u).netloc,
             (urlsplit u).path ++ ['/'], qo.getD [], fo.getD []⟩ := by
          rw [hsq]
          have hsh : (((urlsplit u).scheme ++ ':' :: '/' :: '/' ::
              ((urlsplit u).netloc ++ (urlsplit u).path)) ++ ['/']) ++
              (optPart '?' qo ++ optPart '#' fo) =
              ((urlsplit u).scheme ++ ':' :: '/' :: '/' ::
                ((urlsplit u).netloc ++ ((urlsplit u).path ++ ['/']))) ++
              (optPart '?' qo ++ optPart '#' fo) := by
            simp [List.append_assoc]
          rw [hsh]
          refine urlsplit_assemble2 _ _ _ qo fo hvs hnwf ?_ ?_ ?_ hqo
          · rcases hshape with hp | hp
            · right
              rw [hp]
              rfl
            · right
              cases hpp : (urlsplit u).path with
              | nil => simp [hpp] at hp
              | cons x xt =>
                rw [hpp] at hp
                simp at hp
                simp [hp]
          · intro hm
            rcases List.mem_append.1 hm with hm | hm
            · exact hpwf.1 hm
            · simp at hm
          · intro hm
            rcases List.mem_append.1 hm with hm | hm
            · exact hpwf.2 hm
            · simp at hm
        have h1 : with_trailing_slash u = .ok ((strip_query u ++ ['/']) ++
            (optPart '?' qo ++ optPart '#' fo)) := by
          rw [with_trailing_slash_eq hu, if_neg hL, hrep]
        have hval : validURL ((strip_query u ++ ['/']) ++
            (optPart '?' qo ++ optPart '#' fo)) :=
          validURL_of_split hu (by rw [hrsplit]) (by rw [hrsplit])
        refine ⟨_, h1, with_fix hval ?_⟩
        rw [strip_slash_iff hval, hrsplit]
        simp [hfo0, List.getLast?_concat]
      · -- non-empty fragment: the slash lands after the fragment
        have hfo : fo = some ((urlsplit u).fragment) := by
          cases hfoe : fo with
          | none =>
            rw [hfoe] at hf
            exact absurd hf hf0
          | some f2 =>
            rw [hfoe] at hf
            simp at hf
            rw [hf]
        rw [if_neg hf0] at hsq
        simp only [optPart] at hsq
        have hudec2 : u = ((urlsplit u).scheme ++ ':' :: '/' :: '/' ::
            ((urlsplit u).netloc ++ (urlsplit u).path)) ++
            (optPart '?' qo ++ '#' :: (urlsplit u).fragment) := by
          conv_lhs => rw [hudec, hfo]
          simp only [optPart]
        -- the result of the first application, when it changes the string
        have hcont : ∀ hrep : replaceFirst (strip_query u)
              (strip_query u ++ ['/']) u = u ++ ['/'],
            ∃ r, with_trailing_slash u = .ok r ∧ with_trailing_slash r = .ok r := by
          intro hrep
          have h1 : with_trailing_slash u = .ok (u ++ ['/']) := by
            rw [with_trailing_slash_eq hu, if_neg hL, hrep]
          have hrsplit : urlsplit (u ++ ['/']) =
              ⟨(urlsplit u).scheme, (urlsplit u).netloc, (urlsplit u).path,
               qo.getD [], (urlsplit u).fragment ++ ['/']⟩ := by
            have hsh : u ++ ['/'] = ((urlsplit u).scheme ++ ':' :: '/' :: '/' ::
                ((urlsplit u).netloc ++ (urlsplit u).path)) ++
                (optPart '?' qo ++ optPart '#' (some ((urlsplit u).fragment ++ ['/']))) := by
              conv_lhs => rw [hudec2]
              simp [optPart, List.append_assoc]
            rw [hsh]
            exact urlsplit_assemble2 _ _ _ qo (some ((urlsplit u).fragment ++ ['/']))
              hvs hnwf hshape hpwf.1 hpwf.2 hqo
          have hval : validURL (u ++ ['/']) :=
            validURL_of_split hu (by rw [hrsplit]) (by rw [hrsplit])
          refine ⟨_, h1, with_fix hval ?_⟩
          rw [strip_slash_iff hval, hrsplit]
          simp [List.getLast?_concat]
        cases hqoe : qo with
        | none =>
          have hu2 : u = ((urlsplit u).scheme ++ ':' :: '/' :: '/' ::
              ((urlsplit u).netloc ++ (urlsplit u).path)) ++
              '#' :: (urlsplit u).fragment := by
            conv_lhs => rw [hudec2]
            simp only [hqoe, optPart, List.nil_append]
          refine hcont ?_
          rw [hsq, ← hu2]
          rw [replaceFirst_head_occ _ (List.isPrefixOf_iff_prefix.2 ⟨[], by simp⟩)]
          simp
        | some Q =>
          have hQ : '#' ∉ Q := hqo Q hqoe
          have hu3 : u = ((urlsplit u).scheme ++ ':' :: '/' :: '/' ::
              ((urlsplit u).netloc ++ (urlsplit u).path)) ++
              '?' :: (Q ++ '#' :: (urlsplit u).fragment) := by
            conv_lhs => rw [hudec2]
            simp only [hqoe, optPart, List.cons_append, List.append_assoc]
          have hocc : ∀ a b, u = a ++ (((urlsplit u).scheme ++ ':' :: '/' :: '/' ::
              ((urlsplit u).netloc ++ (urlsplit u).path)) ++
              '#' :: (urlsplit u).fragment) ++ b → b = [] := by
            intro a b hab
            have hform : ((urlsplit u).scheme ++ ':' :: '/' :: '/' ::
                ((urlsplit u).netloc ++ (urlsplit u).path)) ++
                '?' :: (Q ++ '#' :: (urlsplit u).fragment) =
                a ++ (((urlsplit u).scheme ++ ':' :: '/' :: '/' ::
                ((urlsplit u).netloc ++ (urlsplit u).path)) ++
                '#' :: (urlsplit u).fragment) ++ b := by
              rw [← hu3]
              exact hab
            exact occ_suffix_only (hash_not_mem_PRE hu) hQ a b hform
          by_cases hsuf : ∃ front, u = front ++ (((urlsplit u).scheme ++ ':' :: '/' :: '/' ::
              ((urlsplit u).netloc ++ (urlsplit u).path)) ++ '#' :: (urlsplit u).fragment)
          · obtain ⟨front, hfr⟩ := hsuf
            refine hcont ?_
            rw [hsq]
            rw [replaceFirst_of_unique_suffix _ hocc hfr]
            conv_rhs => rw [hfr]
            simp [List.append_assoc]
          · have hno : ¬ ∃ a b, u = a ++ (((urlsplit u).scheme ++ ':' :: '/' :: '/' ::
                ((urlsplit u).netloc ++ (urlsplit u).path)) ++
                '#' :: (urlsplit u).fragment) ++ b := by
              rintro ⟨a, b, hab⟩
              have hb := hocc a b hab
              subst hb
              refine hsuf ⟨a, ?_⟩
              simpa using hab
            have h1 : with_trailing_slash u = .ok u := by
              rw [with_trailing_slash_eq hu, if_neg hL, hsq]
              rw [replaceFirst_of_no_occ hno]
            exact ⟨u, h1, h1⟩
  · intro u hu hf0 hnDD
    by_cases hL : (strip_query u).getLast? = some '/'
    · have hpL : (urlsplit u).path.getLast? = some '/' := by
        have h := (strip_slash_iff hu).1 hL
        rw [if_pos hf0] at h
        exact h
      have hnd : ¬ (urlsplit u).path.dropLast.getLast? = some '/' :=
        fun hc => hnDD ⟨hpL, hc⟩
      obtain ⟨qo, fo, hudec, hq, hf, hshape, hsq⟩ := strip_query_decomp hu
      have hvs := validURL_scheme hu
      have hnwf := urlsplit_netloc_wf u
      have hpwf := urlsplit_path_wf u
      have hqwf := urlsplit_query_wf u
      have hqo : ∀ q', qo = some q' → '#' ∉ q' := by
        intro q' he
        have hqq : (urlsplit u).query = q' := by rw [hq, he]; rfl
        rw [← hqq]
        exact hqwf
      have hpre : ((urlsplit u).scheme ++ ':' :: '/' :: '/' ::
          ((urlsplit u).netloc ++ (urlsplit u).path)).isPrefixOf u = true :=
        List.isPrefixOf_iff_prefix.2 ⟨optPart '?' qo ++ optPart '#' fo, hudec.symm⟩
      have hgen : ∀ (P t : List Char), u = P ++ t → u.drop P.length = t := by
        intro P t h
        rw [h]
        exact List.drop_left _ _
      rw [hf0] at hsq
      simp only [reduceIte, optPart, List.append_nil] at hsq
      have hfo0 : fo.getD [] = ([] : List Char) := by rw [← hf, hf0]
      have hp0 : (urlsplit u).path ≠ [] := by
        intro he
        rw [he] at hpL
        cases hpL
      have hrep : replaceFirst (strip_query u) (strip_query u).dropLast u =
          ((urlsplit u).scheme ++ ':' :: '/' :: '/' ::
            ((urlsplit u).netloc ++ (urlsplit u).path.dropLast)) ++
          (optPart '?' qo ++ optPart '#' fo) := by
        rw [hsq, replaceFirst_head_occ _ hpre, hgen _ _ hudec,
          PRE_dropLast _ _ _ hp0]
      have hrsplit : urlsplit (((urlsplit u).scheme ++ ':' :: '/' :: '/' ::
          ((urlsplit u).netloc ++ (urlsplit u).path.dropLast)) ++
          (optPart '?' qo ++ optPart '#' fo)) =
          ⟨(urlsplit u).scheme, (urlsplit u).netloc,
           (urlsplit u).path.dropLast, qo.getD [], fo.getD []⟩ := by
        refine urlsplit_assemble2 _ _ _ qo fo hvs hnwf ?_ ?_ ?_ hqo
        · rcases hshape with hp | hp
          · exact absurd hp hp0
          · cases hpp : (urlsplit u).path with
            | nil => exact absurd hpp hp0
            | cons x xt =>
              rw [hpp] at hp
              simp at hp
              subst hp
              cases xt with
              | nil => left; rfl
              | cons y yt =>
                right
                simp [List.dropLast]
        · intro hm
          exact hpwf.1 ((List.dropLast_sublist _).subset hm)
        · intro hm
          exact hpwf.2 ((List.dropLast_sublist _).subset hm)
      have h1 : without_trailing_slash u = .ok (((urlsplit u).scheme ++ ':' :: '/' :: '/' ::
          ((urlsplit u).netloc ++ (urlsplit u).path.dropLast)) ++
          (optPart '?' qo ++ optPart '#' fo)) := by
        rw [without_trailing_slash_eq hu, if_pos hL, hrep]
      have hval : validURL (((urlsplit u).scheme ++ ':' :: '/' :: '/' ::
          ((urlsplit u).netloc ++ (urlsplit u).path.dropLast)) ++
          (optPart '?' qo ++ optPart '#' fo)) :=
        validURL_of_split hu (by rw [hrsplit]) (by rw [hrsplit])
      refine ⟨_, h1, without_fix hval ?_⟩
      rw [strip_slash_iff hval, hrsplit]
      simp [hfo0, hnd]
    · exact ⟨u, without_fix hu hL, without_fix hu hL⟩

/-- Witness for C6 at a concrete input. -/
theorem C6_witness :
    ∃ r, with_trailing_slash (cs "http://google.com") = .ok r ∧
      with_trailing_slash r = .ok r :=
  C6_trailing_slash_idempotence.1 (cs "http://google.com") (by decide)

/-- C6 counterexample: `without_trailing_slash` is not idempotent — on
`http://google.com//` (a valid URL; path `//`) one application removes one
slash and a second application removes another. -/
theorem C6_counterexample :
    validURL (cs "http://google.com//") ∧
    without_trailing_slash (cs "http://google.com//") = .ok (cs "http://google.com/") ∧
    without_trailing_slash (cs "http://google.com/") = .ok (cs "http://google.com") ∧
    cs "http://google.com/" ≠ cs "http://google.com" := by
  refine ⟨by decide, by decide, by decide, by decide⟩

/-! ## C7: the frame property of the component accessors -/

/-- A valid URL's path is empty or starts with `/` (it was assembled with a
netloc present). -/
theorem validURL_path_shape {u : List Char} (hu : validURL u) :
    (urlsplit u).path = [] ∨ (urlsplit u).path.head? = some '/' := by
  obtain ⟨qo, fo, -, -, -, hshape⟩ := validURL_decomp u hu
  exact hshape

/-- `normPath` is the identity on a path that is empty or absolute,
whatever the netloc. -/
theorem normPath_of_shape (n : List Char) {p : List Char}
    (h : p = [] ∨ p.head? = some '/') : normPath n p = p := by
  unfold normPath
  rcases h with h | h
  · simp [h]
  · simp [h]

/-- Frame lemma for `__replace`: when the replacement keeps every component
well-formed, a successfully re-constructed result splits into exactly the
components prescribed by the replacement. -/
theorem replace_frame {u : List Char} (f : SplitURL → SplitURL)
    (hs : validScheme (f (urlsplit u)).scheme = true)
    (hn : ∀ x ∈ (f (urlsplit u)).netloc, isNetlocEnd x = false)
    (hpq : '?' ∉ (f (urlsplit u)).path) (hpf : '#' ∉ (f (urlsplit u)).path)
    (hq : '#' ∉ (f (urlsplit u)).query) :
    ∀ r, URL_new (rawReplace u f) = .ok r →
      urlsplit r = ⟨(f (urlsplit u)).scheme, (f (urlsplit u)).netloc,
        normPath (f (urlsplit u)).netloc (f (urlsplit u)).path,
        (f (urlsplit u)).query, (f (urlsplit u)).fragment⟩ := by
  intro r hr
  obtain ⟨hre, -⟩ := URL_new_ok_inv hr
  rw [hre]
  exact urlsplit_rawReplace u f hs hn hpq hpf hq

/-- `with_netloc` on a valid URL with a well-formed new netloc replaces the
netloc and nothing else. -/
theorem with_netloc_frame {u : List Char} (hu : validURL u) (n : List Char)
    (hn : ∀ x ∈ n, isNetlocEnd x = false) :
    ∀ r, with_netloc u n = .ok r →
      urlsplit r = { urlsplit u with netloc := n } := by
  intro r hr
  have h := replace_frame (fun c => { c with netloc := n })
      (validURL_scheme hu) hn (urlsplit_path_wf u).1 (urlsplit_path_wf u).2
      (urlsplit_query_wf u) r hr
  rw [h]
  show SplitURL.mk (urlsplit u).scheme n
      (normPath n (urlsplit u).path) (urlsplit u).query (urlsplit u).fragment = _
  rw [normPath_of_shape n (validURL_path_shape hu)]

/-- C7: on every valid URL, each `with_*`/`without_*` accessor replaces
exactly one of the five generic components: whenever it succeeds, the split
of the result is the split of the input with that single component replaced
(the path additionally normalised by `urlunsplit`'s leading-slash rule) and
the other four components unchanged. Each argument is assumed well-formed
for its component type (a valid scheme; no `/?#` in a netloc; no `?#` in a
path; no `#` in a query; the fragment is percent-encoded by the accessor
itself). -/
theorem C7_accessor_frame :
    ∀ u : List Char, validURL u →
      (∀ s r, validScheme s = true → with_scheme u s = .ok r →
        urlsplit r = { urlsplit u with scheme := s }) ∧
      (∀ n r, (∀ x ∈ n, isNetlocEnd x = false) → with_netloc u n = .ok r →
        urlsplit r = { urlsplit u with netloc := n }) ∧
      (∀ p r, '?' ∉ p → '#' ∉ p → with_path u p = .ok r →
        urlsplit r = { urlsplit u with path := normPath (urlsplit u).netloc p }) ∧
      (∀ q r, '#' ∉ q → with_query u q = .ok r →
        urlsplit r = { urlsplit u with query := q }) ∧
      (∀ r, without_query u = .ok r →
        urlsplit r = { urlsplit u with query := [] }) ∧
      (∀ f r, with_fragment u f = .ok r →
        urlsplit r = { urlsplit u with fragment := path_encode [] (utf8Encode f) }) ∧
      (∀ r, without_fragment u = .ok r →
        urlsplit r = { urlsplit u with fragment := [] }) ∧
      (∀ user r, (∀ x ∈ netloc_with_username (urlsplit u).netloc user, isNetlocEnd x = false) →
        with_username u user = .ok r →
        urlsplit r = { urlsplit u with
          netloc := netloc_with_username (urlsplit u).netloc user }) ∧
      (∀ port r, (∀ x ∈ netloc_with_port (urlsplit u).netloc port, isNetlocEnd x = false) →
        with_port u port = .ok r →
        urlsplit r = { urlsplit u with
          netloc := netloc_with_port (urlsplit u).netloc port }) ∧
      (∀ r, (∀ x ∈ netloc_without_port (urlsplit u).netloc, isNetlocEnd x = false) →
        without_port u = .ok r →
        urlsplit r = { urlsplit u with
          netloc := netloc_without_port (urlsplit u).netloc }) := by
  intro u hu
  refine ⟨?_, fun n r h hr => with_netloc_frame hu n h r hr, ?_, ?_, ?_, ?_, ?_,
    fun user r h hr => with_netloc_frame hu _ h r hr,
    fun port r h hr => with_netloc_frame hu _ h r hr,
    fun r h hr => with_netloc_frame hu _ h r hr⟩
  · intro s r hs hr
    have h := replace_frame (fun c => { c with scheme := s }) hs
        (urlsplit_netloc_wf u) (urlsplit_path_wf u).1 (urlsplit_path_wf u).2
        (urlsplit_query_wf u) r hr
    rw [h]
    show SplitURL.mk s (urlsplit u).netloc
        (normPath (urlsplit u).netloc (urlsplit u).path)
        (urlsplit u).query (urlsplit u).fragment = _
    rw [validURL_normPath hu]
  · intro p r hpq hpf hr
    have h := replace_frame (fun c => { c with path := p })
        (validURL_scheme hu) (urlsplit_netloc_wf u) hpq hpf
        (urlsplit_query_wf u) r hr
    rw [h]
  · intro q r hq hr
    have h := replace_frame (fun c => { c with query := q })
        (validURL_scheme hu) (urlsplit_netloc_wf u) (urlsplit_path_wf u).1
        (urlsplit_path_wf u).2 hq r hr
    rw [h]
    show SplitURL.mk (urlsplit u).scheme (urlsplit u).netloc
        (normPath (urlsplit u).netloc (urlsplit u).path) q (urlsplit u).fragment = _
    rw [validURL_normPath hu]
  · intro r hr
    have h := replace_frame (fun c => { c with query := ([] : List Char) })
        (validURL_scheme hu) (urlsplit_netloc_wf u) (urlsplit_path_wf u).1
        (urlsplit_path_wf u).2 (by simp) r hr
    rw [h]
    show SplitURL.mk (urlsplit u).scheme (urlsplit u).netloc
        (normPath (urlsplit u).netloc (urlsplit u).path) [] (urlsplit u).fragment = _
    rw [validURL_normPath hu]
  · intro f r hr
    have h := replace_frame (fun c => { c with fragment := path_encode [] (utf8Encode f) })
        (validURL_scheme hu) (urlsplit_netloc_wf u) (urlsplit_path_wf u).1
        (urlsplit_path_wf u).2 (urlsplit_query_wf u) r hr
    rw [h]
    show SplitURL.mk (urlsplit u).scheme (urlsplit u).netloc
        (normPath (urlsplit u).netloc (urlsplit u).path) (urlsplit u).query
        (path_encode [] (utf8Encode f)) = _
    rw [validURL_normPath hu]
  · intro r hr
    have h := replace_frame (fun c => { c with fragment := ([] : List Char) })
        (validURL_scheme hu) (urlsplit_netloc_wf u) (urlsplit_path_wf u).1
        (urlsplit_path_wf u).2 (urlsplit_query_wf u) r hr
    rw [h]
    show SplitURL.mk (urlsplit u).scheme (urlsplit u).netloc
        (normPath (urlsplit u).netloc (urlsplit u).path) (urlsplit u).query [] = _
    rw [validURL_normPath hu]

/-- Witness for C7 at concrete inputs: changing the scheme and setting a
port each leave the other four components intact. -/
theorem C7_witness :
    urlsplit (cs "https://google.com/a?q#f") =
      { urlsplit (cs "http://google.com/a?q#f") with scheme := cs "https" } ∧
    urlsplit (cs "http://google.com:8080/a?q#f") =
      { urlsplit (cs "http://google.com/a?q#f") with
        netloc := netloc_with_port (urlsplit (cs "http://google.com/a?q#f")).netloc 8080 } := by
  constructor
  · exact (C7_accessor_frame (cs "http://google.com/a?q#f") (by decide)).1
      (cs "https") (cs "https://google.com/a?q#f") (by decide) (by decide)
  · exact (C7_accessor_frame (cs "http://google.com/a?q#f") (by decide)).2.2.2.2.2.2.2.2.1
      8080 (cs "http://google.com:8080/a?q#f") (by decide) (by decide)

end Urlblocks
